import Mathlib

/-!
Shallow embedding of `tools/auto_fill_l10n.py`, a conservative filler of empty
entries in a JSON localization map, together with proofs about its behaviour.

Strings are modelled as `List Char` (Python strings are sequences of code
points); the JSON document is an association list that keeps insertion order,
mirroring Python `dict` iteration order.  The remote translation service is a
pure oracle `tr : String → Option String` (the three identical retry attempts
of a pure oracle collapse into one call; `none` models the case where every
attempt raised or returned an empty translation).
-/

set_option maxRecDepth 4000

/-- ASCII lowercase letter, the regex class `[a-z]`. -/
def isAsciiLower (c : Char) : Bool := 'a' ≤ c && c ≤ 'z'

/-- ASCII uppercase letter, the regex class `[A-Z]`. -/
def isAsciiUpper (c : Char) : Bool := 'A' ≤ c && c ≤ 'Z'

/-- ASCII letter, the regex class `[A-Za-z]`. -/
def isAsciiLetter (c : Char) : Bool := isAsciiLower c || isAsciiUpper c

/-- ASCII decimal digit.  Python's `\d` with the default string flags matches
all Unicode decimal digits; only the ASCII range is modelled here. -/
def isDigitCh (c : Char) : Bool := '0' ≤ c && c ≤ '9'

/-- ASCII alphanumeric, the regex class `[A-Za-z0-9]`. -/
def isAlnumAscii (c : Char) : Bool := isAsciiLetter c || isDigitCh c

/-- Whitespace as stripped by Python `str.strip()` / `str.lstrip()`.
Python also strips some non-ASCII space code points; only the ASCII
whitespace characters are modelled here. -/
def pyIsSpace (c : Char) : Bool :=
  c = ' ' || c = '\t' || c = '\n' || c = '\r' || c = '\x0b' || c = '\x0c'

/-- Word character for Python's `re` `\w` under `re.UNICODE`.  ASCII word
characters are modelled exactly; of the non-ASCII word code points only the
CJK Unified Ideographs block (the only non-ASCII letters this tool otherwise
inspects) is modelled, the rest count as non-word. -/
def pyWordChar (c : Char) : Bool :=
  isAlnumAscii c || c = '_' || (0x4e00 ≤ c.toNat && c.toNat ≤ 0x9fff)

/-- Python `str.lstrip()` on a list of characters. -/
def pyLStrip (s : List Char) : List Char := s.dropWhile pyIsSpace

/-- Python `str.strip()` (both ends) on a list of characters. -/
def pyStripList (s : List Char) : List Char :=
  ((s.dropWhile pyIsSpace).reverse.dropWhile pyIsSpace).reverse

/-- Python `str.strip()` on a `String`. -/
def pyStripStr (s : String) : String := String.mk (pyStripList s.data)

/-- Does `s` start with `p`?  Models `str.startswith` and anchors of regex
matching. -/
def listStartsWith : List Char → List Char → Bool
  | [], _ => true
  | _ :: _, [] => false
  | p :: ps, c :: cs => p = c && listStartsWith ps cs

/-- Substring containment, Python's `pat in s` for strings. -/
def containsSub : List Char → List Char → Bool
  | pat, [] => pat.isEmpty
  | pat, c :: rest => listStartsWith pat (c :: rest) || containsSub pat rest

/-- Does `f` accept some suffix of `s`?  Used to model `re.search`, which
tries every start position. -/
def searchAny (f : List Char → Bool) : List Char → Bool
  | [] => f []
  | c :: rest => f (c :: rest) || searchAny f rest

/-- Decimal digit character for a value `d < 10`. -/
def digitChar (d : Nat) : Char := Char.ofNat (48 + d)

/-- Decimal rendering of a natural number, with fuel to keep the recursion
structural (kernel-reducible).  `natDigits` below supplies sufficient fuel. -/
def natDigitsGo : Nat → Nat → List Char
  | 0, _ => []
  | fuel + 1, n =>
    if n < 10 then [digitChar n] else natDigitsGo fuel (n / 10) ++ [digitChar (n % 10)]

/-- Decimal rendering of a natural number, Python's `f"{n}"`. -/
def natDigits (n : Nat) : List Char := natDigitsGo (n + 1) n

example : natDigits 0 = ['0'] := by decide
example : natDigits 135 = ['1', '3', '5'] := by decide
example : pyStripList "  ab ".data = ['a', 'b'] := by decide
example : containsSub "lo".data "hello".data = true := by decide
example : containsSub "lo".data "hel".data = false := by decide

/-!  Models of the compiled regular expressions of the script.

Each `fullmatch` use is rendered as a predicate on the whole character list;
each `search` use enumerates start positions with `searchAny`.  The patterns
contain no backtracking ambiguity (character classes are disjoint from the
literals that follow them), so the greedy matches are rendered directly. -/

/-- Character class of `_RE_IDENTIFIER = ^[a-z0-9_.:/\\-]+$`. -/
def identClassChar (c : Char) : Bool :=
  isAsciiLower c || isDigitCh c || c = '_' || c = '.' || c = ':' || c = '/' ||
    c = '\\' || c = '-'

/-- `_RE_IDENTIFIER.fullmatch`: one or more characters of the class. -/
def identFullmatch (t : List Char) : Bool := !t.isEmpty && t.all identClassChar

/-- Character class of `_RE_CAMEL_NO_SPACE = ^[A-Za-z0-9_]+$`. -/
def wordAsciiChar (c : Char) : Bool := isAlnumAscii c || c = '_'

/-- `_RE_CAMEL_NO_SPACE.fullmatch`. -/
def camelFullmatch (t : List Char) : Bool := !t.isEmpty && t.all wordAsciiChar

/-- `_RE_PUNCT_ONLY = ^\W+$` under `re.fullmatch`: nonempty and every
character is a non-word character (`\W` also matches a newline, so the
trailing-newline allowance of `$` adds nothing under `fullmatch`). -/
def punctOnlyFullmatch (t : List Char) : Bool := !t.isEmpty && t.all (fun c => !pyWordChar c)

/-- `_RE_NUMBER_ONLY = ^\d+(?:\.\d+)?$` under `re.fullmatch`. -/
def numberOnlyFullmatch (t : List Char) : Bool :=
  let ds := t.takeWhile isDigitCh
  let rest := t.dropWhile isDigitCh
  !ds.isEmpty &&
    (rest.isEmpty ||
      match rest with
      | '.' :: fs => !fs.isEmpty && fs.all isDigitCh
      | _ => false)

/-- Tail `\.[A-Za-z0-9]{1,6}` of `_RE_FILELIKE`, anchored at the end of the
searched text (the `$`): a dot, then one to six alphanumerics, then the end. -/
def dotExtAtEnd : List Char → Bool
  | [] => false
  | c :: ext => c = '.' && (!ext.isEmpty && ext.length ≤ 6 && ext.all isAlnumAscii)

/-- `.+\.[A-Za-z0-9]{1,6}` anchored at the end: at least one non-newline
character (`.` does not match a newline), then the dot-extension tail. -/
def midDotExt : List Char → Bool
  | [] => false
  | c :: rest => c ≠ '\n' && (dotExtAtEnd rest || midDotExt rest)

/-- One candidate match of `_RE_FILELIKE = [\\/].+\.[A-Za-z0-9]{1,6}$`,
anchored at both ends of the candidate suffix. -/
def fileLikeAt : List Char → Bool
  | [] => false
  | c :: rest => (c = '/' || c = '\\') && midDotExt rest

/-- Without `re.MULTILINE`, `$` matches at the end of the string or just
before one final newline; a match of `_RE_FILELIKE` cannot contain a newline,
so searching reduces to anchoring at the end of the text with one trailing
newline removed. -/
def dropFinalNewline (t : List Char) : List Char :=
  match t.reverse with
  | '\n' :: r => r.reverse
  | _ => t

/-- `_RE_FILELIKE.search`. -/
def fileLikeSearch (t : List Char) : Bool := searchAny fileLikeAt (dropFinalNewline t)

/-- Suffix of `_RE_DEBUG_FMT` after the pivot: `[^}]*\}` matching a prefix of
the remaining text — some closing brace is reached without an earlier brace
being excluded (every character before it is allowed by `[^}]`). -/
def dbgClose : List Char → Bool
  | [] => false
  | c :: rest => c = '}' || dbgClose rest

/-- Part of `_RE_DEBUG_FMT` after the opening brace: `[^}]*[:?!][^}]*\}`
matching a prefix of the remaining text. -/
def dbgAfterBrace : List Char → Bool
  | [] => false
  | c :: rest =>
    if c = '}' then false
    else if c = ':' || c = '?' || c = '!' then dbgClose rest || dbgAfterBrace rest
    else dbgAfterBrace rest

/-- One candidate match of `_RE_DEBUG_FMT = \{[^}]*[:?!][^}]*\}`. -/
def dbgAt : List Char → Bool
  | [] => false
  | c :: rest => c = '{' && dbgAfterBrace rest

/-- `_RE_DEBUG_FMT.search`. -/
def debugFmtSearch (t : List Char) : Bool := searchAny dbgAt t

example : identFullmatch "foo_bar.rs".data = true := by decide
example : identFullmatch "Foo".data = false := by decide
example : camelFullmatch "CamelCase".data = true := by decide
example : numberOnlyFullmatch "12.5".data = true := by decide
example : numberOnlyFullmatch "12.".data = false := by decide
example : fileLikeSearch "see src/main.rs".data = true := by decide
example : fileLikeSearch "see src/main.toolong".data = false := by decide
example : fileLikeSearch "no path here".data = false := by decide
example : debugFmtSearch "count: \x7b:?\x7d".data = true := by decide
example : debugFmtSearch "hello \x7bname\x7d".data = false := by decide

/-!  Placeholder masking (`_RE_PLACEHOLDERS`, `_mask_placeholders`,
`_unmask_placeholders`).  `re.sub` scans left to right, taking at each
position the first alternative that matches and continuing after the match,
otherwise copying one character. -/

/-- Alternative `\{[^}]*\}`: returns the match length.  `[^}]*` is stopped by
the first closing brace, which must exist. -/
def phAlt1 : List Char → Option Nat
  | '{' :: rest =>
    let mid := rest.takeWhile (fun c => c ≠ '}')
    if mid.length < rest.length then some (mid.length + 2) else none
  | _ => none

/-- Alternative `%\d*\$?[a-zA-Z]`: a percent sign, greedy digits, an optional
dollar, one ASCII letter.  (The classes are disjoint, so greediness is
deterministic.) -/
def phAlt2 : List Char → Option Nat
  | '%' :: rest =>
    let ds := rest.takeWhile isDigitCh
    match rest.dropWhile isDigitCh with
    | '$' :: c :: _ => if isAsciiLetter c then some (ds.length + 3) else none
    | c :: _ => if isAsciiLetter c then some (ds.length + 2) else none
    | [] => none
  | _ => none

/-- Alternative `\$\{[^}]+\}`. -/
def phAlt3 : List Char → Option Nat
  | '$' :: '{' :: rest =>
    let mid := rest.takeWhile (fun c => c ≠ '}')
    if !mid.isEmpty && mid.length < rest.length then some (mid.length + 3) else none
  | _ => none

/-- Length of the placeholder match starting at the head of the text, if any;
the alternatives are tried in the order they appear in `_RE_PLACEHOLDERS`. -/
def phMatchLen (s : List Char) : Option Nat :=
  match phAlt1 s with
  | some n => some n
  | none =>
    match phAlt2 s with
    | some n => some n
    | none => phAlt3 s

/-- The replacement token `f"__PH{i}__"`. -/
def phToken (i : Nat) : List Char :=
  '_' :: '_' :: 'P' :: 'H' :: (natDigits i ++ ['_', '_'])

/-- The scan of `_RE_PLACEHOLDERS.sub` inside `_mask_placeholders`: at each
position replace a match by the token of the next index and record it,
otherwise copy the character.  The fuel (one unit per consumed character is
enough) keeps the recursion structural. -/
def maskGo : Nat → List Char → List (List Char) → List Char × List (List Char)
  | 0, s, phs => (s, phs)
  | _ + 1, [], phs => ([], phs)
  | fuel + 1, c :: rest, phs =>
    match phMatchLen (c :: rest) with
    | some n =>
      let r := maskGo fuel ((c :: rest).drop n) (phs ++ [(c :: rest).take n])
      (phToken phs.length ++ r.1, r.2)
    | none =>
      let r := maskGo fuel rest phs
      (c :: r.1, r.2)

/-- `_mask_placeholders`. -/
def maskPlaceholders (text : String) : String × List String :=
  let r := maskGo text.data.length text.data []
  (String.mk r.1, r.2.map String.mk)

/-- Python `str.replace(old, new)` (all non-overlapping occurrences, left to
right), with fuel for structural recursion; the script only calls it with the
nonempty `old = f"__PH{i}__"`, so the empty-`old` behaviour is irrelevant and
the scan simply moves on when `old` does not start here. -/
def pyReplaceGo : Nat → List Char → List Char → List Char → List Char
  | 0, _, _, s => s
  | fuel + 1, old, new, s =>
    match s with
    | [] => []
    | c :: rest =>
      if !old.isEmpty && listStartsWith old (c :: rest) then
        new ++ pyReplaceGo fuel old new ((c :: rest).drop old.length)
      else
        c :: pyReplaceGo fuel old new rest

/-- Python `s.replace(old, new)`. -/
def pyReplace (s old new : List Char) : List Char := pyReplaceGo s.length old new s

/-- The characters `"__PH"`, checked by the final guard of
`_unmask_placeholders`. -/
def phMarker : List Char := ['_', '_', 'P', 'H']

/-- The loop of `_unmask_placeholders`: for each placeholder in order, its
token must occur (else the ORIGINAL text is returned with failure) and is
replaced everywhere; at the end no `"__PH"` may remain. -/
def unmaskGo (orig : List Char) : List Char → Nat → List (List Char) → Bool × List Char
  | out, _, [] => if containsSub phMarker out then (false, out) else (true, out)
  | out, i, p :: rest =>
    if containsSub (phToken i) out then unmaskGo orig (pyReplace out (phToken i) p) (i + 1) rest
    else (false, orig)

/-- `_unmask_placeholders`. -/
def unmaskPlaceholders (text : String) (phs : List String) : Bool × String :=
  let r := unmaskGo text.data text.data 0 (phs.map String.data)
  (r.1, String.mk r.2)

example : maskPlaceholders "a \x7bn\x7d b" = ("a __PH0__ b", ["\x7bn\x7d"]) := by decide
example : maskPlaceholders "x %s and %2$d" = ("x __PH0__ and __PH1__", ["%s", "%2$d"]) := by
  decide
example : maskPlaceholders "v ${HOME} w" = ("v __PH0__ w", ["${HOME}"]) := by decide
example : unmaskPlaceholders "a __PH0__ b" ["\x7bn\x7d"] = (true, "a \x7bn\x7d b") := by decide
example : maskPlaceholders "__PH" = ("__PH", []) := by decide
example : unmaskPlaceholders "__PH" [] = (false, "__PH") := by decide
example :
    (let p := maskPlaceholders "\x7ba\x7d\x7bb\x7dPH0__rest"
     unmaskPlaceholders p.1 p.2) = (false, "__PH0____PH1__PH0__rest") := by decide

/-!  The risk classification and the main pass. -/

/-- `_contains_letters`: `re.search(r"[A-Za-z]", s)`. -/
def containsLetters (s : String) : Bool := s.data.any isAsciiLetter

/-- `_uppercase_start`: the first character after `lstrip` is an ASCII
uppercase letter. -/
def uppercaseStart (s : String) : Bool :=
  match pyLStrip s.data with
  | [] => false
  | c :: _ => isAsciiUpper c

/-- `_is_high_risk`, check for check in source order. -/
def isHighRisk (text : String) : Bool :=
  let t := pyStripList text.data
  if t.isEmpty then true
  else if 180 < t.length then true
  else if containsSub "://".data t || listStartsWith "mailto:".data t then true
  else if fileLikeSearch t then true
  else if identFullmatch t then true
  else if containsSub "::".data t || containsSub "->".data t || containsSub "=>".data t then
    true
  else if debugFmtSearch t then true
  else if punctOnlyFullmatch t || numberOnlyFullmatch t then true
  else if !t.contains ' ' && camelFullmatch t && t.any isAsciiLower && t.any isAsciiUpper then
    true
  else false

/-- `SAFE_SINGLE_WORDS`. -/
def SAFE_SINGLE_WORDS : List String :=
  ["OK", "Ok", "Cancel", "Search", "Find", "Replace", "Preferences", "Help", "About",
   "Yes", "No"]

/-- `DEFAULT_PREFIX_WHITELIST` of the script (the file-path whitelist used
when no path argument is given). -/
def DEFAULT_PATH_WHITELIST : List String :=
  ["zed/crates/assistant/src/",
   "zed/crates/assistant2/src/",
   "zed/crates/collab_ui/src/",
   "zed/crates/workspace/src/",
   "zed/crates/project_panel/src/",
   "zed/crates/search/src/",
   "zed/crates/file_finder/src/",
   "zed/crates/diagnostics/src/",
   "zed/crates/tasks_ui/src/",
   "zed/crates/zed/src/"]

/-- `_path_whitelisted`: `any(file_path.startswith(p) for p in prefixes)`. -/
def pathWhitelisted (filePath : String) (wl : List String) : Bool :=
  wl.any (fun p => listStartsWith p.data filePath.data)

/-- The `Stats` dataclass. -/
structure Stats where
  scanned_empty : Nat := 0
  eligible : Nat := 0
  filled : Nat := 0
  skipped_high_risk : Nat := 0
  skipped_not_whitelisted : Nat := 0
  skipped_not_uiish : Nat := 0
  skipped_translation_failed : Nat := 0
  skipped_no_chinese : Nat := 0
deriving DecidableEq

/-- Command-line arguments relevant to the pass: `--max` (a Python `int`,
possibly non-positive), `--require-uppercase-start`, and the repeatable
path-whitelist argument (empty means "use the defaults"). -/
structure Args where
  maxFill : Int
  requireUppercaseStart : Bool
  pathArgs : List String
deriving DecidableEq

/-- A value of the top-level JSON object: an inner translation mapping
(original string → translated string or `null`), or any non-dict JSON value,
which `main` passes through untouched (`isinstance` guard). -/
inductive MapVal : Type where
  | obj : List (String × Option String) → MapVal
  | nondict : MapVal
deriving DecidableEq

/-- Mutable state threaded through the pass: the `Stats`, the translation
cache, the local `filled` counter, and whether the `filled >= args.max`
break has triggered.  `attempted` is pure instrumentation: the
`(file path, original)` pairs for which `_translate_with_retries` was
invoked, i.e. the strings submitted to the translation service. -/
structure RunState where
  stats : Stats
  cache : List (String × String)
  filled : Nat
  attempted : List (String × String)
  stop : Bool
deriving DecidableEq

/-- The initial state of a run. -/
def initState : RunState := ⟨{}, [], 0, [], false⟩

/-- `v in (None, "")`: the entry is empty and a candidate for filling. -/
def emptyVal : Option String → Bool
  | none => true
  | some s => s = ""

/-- One successful service call as seen by `_translate_with_retries`: the raw
response stripped, rejected when empty.  Because the oracle is pure, the
retries collapse into this one outcome; it is also what the cache stores. -/
def serviceResult (tr : String → Option String) (text : String) : Option String :=
  match tr text with
  | some raw => let out := pyStripStr raw; if out = "" then none else some out
  | none => none

/-- `_translate_with_retries`: cache lookup first, else one (collapsed) call
whose successful stripped result is cached.  The second component of a
failure models the `f"{last_err}"` message, which the caller never uses. -/
def translateWithRetries (tr : String → Option String) (text : String)
    (cache : List (String × String)) : Bool × String × List (String × String) :=
  match cache.lookup text with
  | some v => (true, v, cache)
  | none =>
    match tr text with
    | some raw =>
      let out := pyStripStr raw
      if out = "" then (false, "", cache) else (true, out, (text, out) :: cache)
    | none => (false, "", cache)

/-- Does the string contain a CJK character, `re.search(r"[一-鿿]", s)`. -/
def hasCJK (s : String) : Bool := s.data.any (fun c => 0x4e00 ≤ c.toNat && c.toNat ≤ 0x9fff)

/-- The body of the inner `for original, translated in list(mapping.items())`
loop of `main`, for one entry.  A state with `stop` set models having broken
out of the loops: the entry is left untouched.  Returns the new state and the
value written back for this key. -/
def processEntry (ar : Args) (tr : String → Option String) (st : RunState)
    (filePath original : String) (v : Option String) : RunState × Option String :=
  if st.stop then (st, v)
  else if !emptyVal v then (st, v)
  else
    let st1 := { st with stats.scanned_empty := st.stats.scanned_empty + 1 }
    if !containsLetters original then
      ({ st1 with stats.skipped_high_risk := st1.stats.skipped_high_risk + 1 }, v)
    else if isHighRisk original then
      ({ st1 with stats.skipped_high_risk := st1.stats.skipped_high_risk + 1 }, v)
    else
      let uiish := uppercaseStart original || SAFE_SINGLE_WORDS.contains (pyStripStr original)
      if ar.requireUppercaseStart && !uiish then
        ({ st1 with stats.skipped_not_uiish := st1.stats.skipped_not_uiish + 1 }, v)
      else
        let st2 := { st1 with stats.eligible := st1.stats.eligible + 1,
                              attempted := st1.attempted ++ [(filePath, original)] }
        let mk := maskPlaceholders original
        let twr := translateWithRetries tr mk.1 st2.cache
        let st3 := { st2 with cache := twr.2.2 }
        if !twr.1 then
          ({ st3 with
             stats.skipped_translation_failed := st3.stats.skipped_translation_failed + 1 }, v)
        else
          let um := unmaskPlaceholders twr.2.1 mk.2
          if !um.1 then
            ({ st3 with
               stats.skipped_translation_failed := st3.stats.skipped_translation_failed + 1 },
             v)
          else
            let u := pyStripStr um.2
            if !hasCJK u then
              ({ st3 with stats.skipped_no_chinese := st3.stats.skipped_no_chinese + 1 }, v)
            else
              ({ st3 with stats.filled := st3.stats.filled + 1,
                          filled := st3.filled + 1,
                          stop := decide (((st3.filled + 1 : Nat) : Int) ≥ ar.maxFill) },
               some u)

/-- The inner entry loop over one whitelisted mapping, rebuilding it in key
order with possibly filled values. -/
def processMapping (ar : Args) (tr : String → Option String) (filePath : String) :
    RunState → List (String × Option String) → RunState × List (String × Option String)
  | st, [] => (st, [])
  | st, (orig, v) :: rest =>
    let r1 := processEntry ar tr st filePath orig v
    let r2 := processMapping ar tr filePath r1.1 rest
    (r2.1, (orig, r1.2) :: r2.2)

/-- Counting pass for a non-whitelisted mapping: each empty value increments
`scanned_empty` and `skipped_not_whitelisted`. -/
def notWhitelistedBump (st : RunState) (m : List (String × Option String)) : RunState :=
  let n := m.countP (fun kv => emptyVal kv.2)
  { st with stats.scanned_empty := st.stats.scanned_empty + n,
            stats.skipped_not_whitelisted := st.stats.skipped_not_whitelisted + n }

/-- The outer `for file_path, mapping in data.items()` loop of `main`.
Once `stop` is set (the `filled >= args.max` break), the remaining document
is returned untouched.  Non-dict values and non-whitelisted mappings are
passed through; after a whitelisted mapping the outer break condition is
(re)checked. -/
def processDoc (ar : Args) (wl : List String) (tr : String → Option String) :
    RunState → List (String × MapVal) → RunState × List (String × MapVal)
  | st, [] => (st, [])
  | st, (fp, mv) :: rest =>
    if st.stop then (st, (fp, mv) :: rest)
    else
      match mv with
      | .nondict =>
        let r := processDoc ar wl tr st rest
        (r.1, (fp, mv) :: r.2)
      | .obj m =>
        if !pathWhitelisted fp wl then
          let r := processDoc ar wl tr (notWhitelistedBump st m) rest
          (r.1, (fp, MapVal.obj m) :: r.2)
        else
          let pm := processMapping ar tr fp st m
          let st2 := if ((pm.1.filled : Int) ≥ ar.maxFill : Bool) then
              { pm.1 with stop := true }
            else pm.1
          let r := processDoc ar wl tr st2 rest
          (r.1, (fp, MapVal.obj pm.2) :: r.2)

/-- The effective whitelist: `args.prefix or list(DEFAULT_PREFIX_WHITELIST)`. -/
def effectiveWhitelist (ar : Args) : List String :=
  if ar.pathArgs.isEmpty then DEFAULT_PATH_WHITELIST else ar.pathArgs

/-- `main` without its I/O shell: the single pass over the parsed document. -/
def runMain (ar : Args) (tr : String → Option String) (doc : List (String × MapVal)) :
    RunState × List (String × MapVal) :=
  processDoc ar (effectiveWhitelist ar) tr initState doc

/-!  Helper lemmas about the list utilities. -/

theorem listStartsWith_iff (p s : List Char) :
    listStartsWith p s = true ↔ ∃ t, s = p ++ t := by
  induction p generalizing s with
  | nil => simp [listStartsWith]
  | cons a p ih =>
    cases s with
    | nil =>
      simp only [listStartsWith, List.cons_append, Bool.false_eq_true, false_iff]
      rintro ⟨t, h⟩
      exact List.noConfusion h
    | cons c cs =>
      simp only [listStartsWith, Bool.and_eq_true, decide_eq_true_eq, ih, List.cons_append,
        List.cons.injEq]
      constructor
      · rintro ⟨rfl, t, rfl⟩; exact ⟨t, rfl, rfl⟩
      · rintro ⟨t, rfl, rfl⟩; exact ⟨rfl, t, rfl⟩

theorem containsSub_iff (p s : List Char) :
    containsSub p s = true ↔ ∃ A B, s = A ++ p ++ B := by
  induction s with
  | nil =>
    simp only [containsSub, List.isEmpty_iff]
    constructor
    · rintro rfl; exact ⟨[], [], rfl⟩
    · rintro ⟨A, B, h⟩
      rcases List.append_eq_nil.mp h.symm with ⟨h1, h2⟩
      exact (List.append_eq_nil.mp h1).2
  | cons c cs ih =>
    simp only [containsSub, Bool.or_eq_true, listStartsWith_iff, ih]
    constructor
    · rintro (⟨t, h⟩ | ⟨A, B, h⟩)
      · exact ⟨[], t, by simpa using h⟩
      · exact ⟨c :: A, B, by simp [h]⟩
    · rintro ⟨A, B, h⟩
      cases A with
      | nil => exact Or.inl ⟨B, by simpa using h⟩
      | cons a A =>
        right
        simp only [List.cons_append, List.cons.injEq] at h
        exact ⟨A, B, h.2⟩

theorem containsSub_of_decomp (p A B : List Char) :
    containsSub p (A ++ p ++ B) = true :=
  (containsSub_iff p _).mpr ⟨A, B, rfl⟩

/-- A string free of the marker pair `"PH"` (no occurrence of `'P'`
immediately followed by `'H'`). -/
def phPairFree (s : List Char) : Prop := containsSub ['P', 'H'] s = false

theorem phPairFree_iff (s : List Char) :
    phPairFree s ↔ ¬ ∃ A B, s = A ++ 'P' :: 'H' :: B := by
  unfold phPairFree
  rw [← Bool.not_eq_true, not_iff_not, containsSub_iff]
  simp

theorem phPairFree_append_elim {x y : List Char} (h : phPairFree (x ++ y)) :
    phPairFree x ∧ phPairFree y := by
  rw [phPairFree_iff] at h ⊢
  rw [phPairFree_iff]
  constructor
  · rintro ⟨A, B, rfl⟩
    exact h ⟨A, B ++ y, by simp⟩
  · rintro ⟨A, B, rfl⟩
    exact h ⟨x ++ A, B, by simp⟩

theorem phPairFree_cons_elim {c : Char} {y : List Char} (h : phPairFree (c :: y)) :
    phPairFree y :=
  (phPairFree_append_elim (x := [c]) (y := y) h).2

/-!  Lemmas about the decimal rendering. -/

theorem natDigitsGo_stable (n : Nat) : ∀ f g, n < f → n < g →
    natDigitsGo f n = natDigitsGo g n := by
  induction n using Nat.strong_induction_on with
  | _ n ih =>
    intro f g hf hg
    match f, g with
    | f + 1, g + 1 =>
      simp only [natDigitsGo]
      by_cases h : n < 10
      · simp [h]
      · have hdiv : n / 10 < n := Nat.div_lt_self (by omega) (by omega)
        simp only [h, if_false]
        rw [ih (n / 10) hdiv f g (by omega) (by omega)]

theorem natDigits_eq_go {f n : Nat} (h : n < f) : natDigits n = natDigitsGo f n :=
  natDigitsGo_stable n (n + 1) f (Nat.lt_succ_self n) h

theorem natDigits_small {n : Nat} (h : n < 10) : natDigits n = [digitChar n] := by
  simp [natDigits, natDigitsGo, h]

theorem natDigits_large {n : Nat} (h : ¬ n < 10) :
    natDigits n = natDigits (n / 10) ++ [digitChar (n % 10)] := by
  have hdiv : n / 10 < n := Nat.div_lt_self (by omega) (by omega)
  rw [natDigits, natDigitsGo]
  simp only [h, if_false]
  rw [← natDigits_eq_go (by omega)]

theorem natDigits_ne_nil (n : Nat) : natDigits n ≠ [] := by
  by_cases h : n < 10
  · rw [natDigits_small h]; simp
  · rw [natDigits_large h]; simp

theorem digitChar_isDigit {d : Nat} (h : d < 10) : isDigitCh (digitChar d) = true := by
  interval_cases d <;> decide

theorem natDigits_all_digits (n : Nat) : ∀ c ∈ natDigits n, isDigitCh c = true := by
  induction n using Nat.strong_induction_on with
  | _ n ih =>
    by_cases h : n < 10
    · rw [natDigits_small h]
      intro c hc
      simp only [List.mem_singleton] at hc
      subst hc
      exact digitChar_isDigit h
    · rw [natDigits_large h]
      intro c hc
      rcases List.mem_append.mp hc with h1 | h1
      · exact ih (n / 10) (Nat.div_lt_self (by omega) (by omega)) c h1
      · simp only [List.mem_singleton] at h1
        subst h1
        exact digitChar_isDigit (Nat.mod_lt _ (by omega))

/-- Value of a digit string, the left inverse used for injectivity. -/
def digitsVal (l : List Char) : Nat := l.foldl (fun a c => a * 10 + (c.toNat - 48)) 0

theorem digitsVal_append_singleton (l : List Char) (c : Char) :
    digitsVal (l ++ [c]) = digitsVal l * 10 + (c.toNat - 48) := by
  simp [digitsVal, List.foldl_append]

theorem digitChar_toNat {d : Nat} (h : d < 10) : (digitChar d).toNat = 48 + d := by
  interval_cases d <;> decide

theorem digitsVal_natDigits (n : Nat) : digitsVal (natDigits n) = n := by
  induction n using Nat.strong_induction_on with
  | _ n ih =>
    by_cases h : n < 10
    · rw [natDigits_small h]
      simp [digitsVal, digitChar_toNat h]
    · rw [natDigits_large h, digitsVal_append_singleton,
        ih (n / 10) (Nat.div_lt_self (by omega) (by omega)),
        digitChar_toNat (Nat.mod_lt _ (by omega))]
      omega

theorem natDigits_inj {m n : Nat} (h : natDigits m = natDigits n) : m = n := by
  have := digitsVal_natDigits m
  rw [h, digitsVal_natDigits] at this
  exact this.symm

/-!  Structure of a masked text: the scan decomposes the input into literal
characters and matched placeholder groups; the masked output renders groups
as tokens with consecutive indices, the placeholder list collects the
groups. -/

/-- One piece of the decomposition produced by the masking scan. -/
inductive Chunk : Type where
  | lit : Char → Chunk
  | grp : List Char → Chunk

/-- The original text of a decomposition. -/
def flattenChunks : List Chunk → List Char
  | [] => []
  | .lit c :: r => c :: flattenChunks r
  | .grp g :: r => g ++ flattenChunks r

/-- The masked text of a decomposition, tokens numbered from `m`. -/
def renderChunks : Nat → List Chunk → List Char
  | _, [] => []
  | m, .lit c :: r => c :: renderChunks m r
  | m, .grp _ :: r => phToken m ++ renderChunks (m + 1) r

/-- The recorded placeholder list of a decomposition. -/
def groupsOf : List Chunk → List (List Char)
  | [] => []
  | .lit _ :: r => groupsOf r
  | .grp g :: r => g :: groupsOf r

theorem phAlt1_bounds {s : List Char} {n : Nat} (h : phAlt1 s = some n) :
    1 ≤ n ∧ n ≤ s.length := by
  unfold phAlt1 at h
  split at h
  · rename_i rest
    simp only at h
    split at h
    · rename_i hlt
      simp only [Option.some.injEq] at h
      subst h
      simp only [List.length_cons]
      omega
    · exact absurd h (by simp)
  · exact absurd h (by simp)

theorem phAlt2_bounds {s : List Char} {n : Nat} (h : phAlt2 s = some n) :
    1 ≤ n ∧ n ≤ s.length := by
  unfold phAlt2 at h
  split at h
  · rename_i rest
    have hsplit : (rest.takeWhile isDigitCh).length + (rest.dropWhile isDigitCh).length
        = rest.length := by
      rw [← List.length_append, List.takeWhile_append_dropWhile]
    simp only at h
    split at h
    · rename_i heq
      split at h
      · simp only [Option.some.injEq] at h
        subst h
        have : (rest.dropWhile isDigitCh).length ≥ 2 := by rw [heq]; simp
        simp only [List.length_cons]
        omega
      · exact absurd h (by simp)
    · rename_i heq
      split at h
      · simp only [Option.some.injEq] at h
        subst h
        have : (rest.dropWhile isDigitCh).length ≥ 1 := by rw [heq]; simp
        simp only [List.length_cons]
        omega
      · exact absurd h (by simp)
    · exact absurd h (by simp)
  · exact absurd h (by simp)

theorem phAlt3_bounds {s : List Char} {n : Nat} (h : phAlt3 s = some n) :
    1 ≤ n ∧ n ≤ s.length := by
  unfold phAlt3 at h
  split at h
  · rename_i rest
    simp only at h
    split at h
    · rename_i hcond
      simp only [Bool.and_eq_true, decide_eq_true_eq] at hcond
      simp only [Option.some.injEq] at h
      subst h
      simp only [List.length_cons]
      omega
    · exact absurd h (by simp)
  · exact absurd h (by simp)

theorem phMatchLen_bounds {s : List Char} {n : Nat} (h : phMatchLen s = some n) :
    1 ≤ n ∧ n ≤ s.length := by
  unfold phMatchLen at h
  split at h
  · rename_i h1
    cases h
    exact phAlt1_bounds h1
  · split at h
    · rename_i h2
      cases h
      exact phAlt2_bounds h2
    · exact phAlt3_bounds h

theorem maskGo_chunks : ∀ fuel s phs0, s.length ≤ fuel →
    ∃ C, maskGo fuel s phs0 = (renderChunks phs0.length C, phs0 ++ groupsOf C) ∧
      flattenChunks C = s := by
  intro fuel
  induction fuel with
  | zero =>
    intro s phs0 h
    have hs : s = [] := List.length_eq_zero.mp (Nat.le_zero.mp h)
    subst hs
    exact ⟨[], by simp [maskGo, renderChunks, groupsOf], rfl⟩
  | succ f ih =>
    intro s phs0 h
    cases s with
    | nil => exact ⟨[], by simp [maskGo, renderChunks, groupsOf], rfl⟩
    | cons c rest =>
      cases hm : phMatchLen (c :: rest) with
      | none =>
        obtain ⟨C, hC, hflat⟩ := ih rest phs0 (by simpa using Nat.le_of_succ_le_succ h)
        refine ⟨.lit c :: C, ?_, ?_⟩
        · simp only [maskGo, hm, hC, renderChunks, groupsOf]
        · simp [flattenChunks, hflat]
      | some n =>
        have hb := phMatchLen_bounds hm
        have hb1 := hb.1
        have hb2 := hb.2
        simp only [List.length_cons] at hb2 h
        obtain ⟨C, hC, hflat⟩ :=
          ih ((c :: rest).drop n) (phs0 ++ [(c :: rest).take n])
            (by simp only [List.length_drop, List.length_cons]; omega)
        refine ⟨.grp ((c :: rest).take n) :: C, ?_, ?_⟩
        · simp only [maskGo, hm, hC, renderChunks, groupsOf, List.length_append,
            List.length_singleton, List.append_assoc, List.singleton_append]
        · simp [flattenChunks, hflat]

/-!  Behaviour of the replacement scan. -/

theorem listStartsWith_append (p t : List Char) : listStartsWith p (p ++ t) = true :=
  (listStartsWith_iff p (p ++ t)).mpr ⟨t, rfl⟩

theorem pyReplaceGo_noOcc (old new : List Char) :
    ∀ fuel s, (∀ A B, s ≠ A ++ old ++ B) → pyReplaceGo fuel old new s = s := by
  intro fuel
  induction fuel with
  | zero => intro s _; rfl
  | succ f ih =>
    intro s hno
    cases s with
    | nil => rfl
    | cons c rest =>
      have hsw : listStartsWith old (c :: rest) = false := by
        by_contra hne
        obtain ⟨t, ht⟩ := (listStartsWith_iff _ _).mp (Bool.of_not_eq_false hne)
        exact hno [] t (by simpa using ht)
      rw [show pyReplaceGo (f + 1) old new (c :: rest)
          = c :: pyReplaceGo f old new rest by
        simp only [pyReplaceGo, hsw, Bool.and_false]
        rw [if_neg (by simp)]]
      rw [ih rest (fun A B hAB => hno (c :: A) B (by simp [hAB]))]

theorem pyReplaceGo_skip (old new : List Char) :
    ∀ A f Z, (∀ A1 A2, A = A1 ++ A2 → A2 ≠ [] → listStartsWith old (A2 ++ Z) = false) →
    pyReplaceGo (A.length + f) old new (A ++ Z) = A ++ pyReplaceGo f old new Z := by
  intro A
  induction A with
  | nil => intro f Z _; simp
  | cons c A' ih =>
    intro f Z hns
    have hsw : listStartsWith old (c :: (A' ++ Z)) = false := by
      have := hns [] (c :: A') rfl (by simp)
      simp only [List.nil_append] at this
      exact this
    have : (c :: A').length + f = (A'.length + f) + 1 := by simp [Nat.succ_add]
    rw [this]
    rw [show pyReplaceGo (A'.length + f + 1) old new ((c :: A') ++ Z)
        = c :: pyReplaceGo (A'.length + f) old new (A' ++ Z) by
      simp only [List.cons_append, pyReplaceGo, hsw, Bool.and_false]
      rw [if_neg (by simp)]]
    rw [ih f Z (fun A1 A2 hA h2 => hns (c :: A1) A2 (by simp [hA]) h2)]
    simp

theorem pyReplaceGo_consume (old new : List Char) (hold : old ≠ []) (f : Nat) (R : List Char) :
    pyReplaceGo (f + 1) old new (old ++ R) = new ++ pyReplaceGo f old new R := by
  match old, hold with
  | o :: os, _ =>
    have hsw : listStartsWith (o :: os) ((o :: os) ++ R) = true := listStartsWith_append _ _
    have hdrop : (o :: (os ++ R)).drop (o :: os).length = R := by
      have := List.drop_left (o :: os) R
      exact this
    simp only [List.cons_append] at hsw ⊢
    simp [pyReplaceGo, hsw, hdrop]

/-!  Alignment: in a rendered chunk list whose original text is `"PH"`-free,
every occurrence of the pair `'P','H'` sits at offset 2 of some token, so an
occurrence of a token `__PH<i>__` can only be a token of the same index. -/

theorem digits_cancel : ∀ (d1 d2 t1 t2 : List Char),
    (∀ c ∈ d1, isDigitCh c = true) → (∀ c ∈ d2, isDigitCh c = true) →
    d1 ++ '_' :: t1 = d2 ++ '_' :: t2 → d1 = d2 ∧ t1 = t2 := by
  intro d1
  induction d1 with
  | nil =>
    intro d2 t1 t2 _ hd2 h
    cases d2 with
    | nil => simpa using h
    | cons c d2' =>
      simp only [List.nil_append, List.cons_append, List.cons.injEq] at h
      have : isDigitCh '_' = true := h.1 ▸ hd2 c (List.mem_cons_self _ _)
      exact absurd this (by decide)
  | cons c d1' ih =>
    intro d2 t1 t2 hd1 hd2 h
    cases d2 with
    | nil =>
      simp only [List.cons_append, List.nil_append, List.cons.injEq] at h
      have : isDigitCh '_' = true := h.1 ▸ hd1 c (List.mem_cons_self _ _)
      exact absurd this (by decide)
    | cons c2 d2' =>
      simp only [List.cons_append, List.cons.injEq] at h
      obtain ⟨rfl, h2⟩ := h
      obtain ⟨he, ht⟩ := ih d2' t1 t2 (fun x hx => hd1 x (List.mem_cons_of_mem _ hx))
        (fun x hx => hd2 x (List.mem_cons_of_mem _ hx)) h2
      exact ⟨by rw [he], ht⟩

theorem digits_split_ph : ∀ (d : List Char), (∀ c ∈ d, isDigitCh c = true) →
    ∀ (t X Y : List Char), d ++ '_' :: '_' :: t = X ++ 'P' :: 'H' :: Y →
    ∃ X', X = d ++ '_' :: '_' :: X' ∧ t = X' ++ 'P' :: 'H' :: Y := by
  intro d
  induction d with
  | nil =>
    intro _ t X Y h
    simp only [List.nil_append] at h
    cases X with
    | nil => simp at h
    | cons x1 X1 =>
      simp only [List.cons_append, List.cons.injEq] at h
      obtain ⟨rfl, h⟩ := h
      cases X1 with
      | nil => simp at h
      | cons x2 X2 =>
        simp only [List.cons_append, List.cons.injEq] at h
        obtain ⟨rfl, h⟩ := h
        exact ⟨X2, by simp, h⟩
  | cons c d' ih =>
    intro hd t X Y h
    cases X with
    | nil =>
      simp only [List.cons_append, List.nil_append, List.cons.injEq] at h
      have : isDigitCh 'P' = true := h.1 ▸ hd c (List.mem_cons_self _ _)
      exact absurd this (by decide)
    | cons x X' =>
      simp only [List.cons_append, List.cons.injEq] at h
      obtain ⟨rfl, h⟩ := h
      obtain ⟨X'', hX, ht⟩ := ih (fun x hx => hd x (List.mem_cons_of_mem _ hx)) t X' Y h
      exact ⟨X'', by simp [hX], ht⟩

theorem render_ph_aligned : ∀ (C : List Chunk) (m : Nat) (X Y : List Char),
    phPairFree (flattenChunks C) → renderChunks m C = X ++ 'P' :: 'H' :: Y →
    ∃ j Y', m ≤ j ∧ Y = natDigits j ++ '_' :: '_' :: Y' := by
  intro C
  induction C with
  | nil =>
    intro m X Y _ h
    exact absurd h.symm (by simp [renderChunks])
  | cons ch C' ih =>
    intro m X Y hfree h
    cases ch with
    | lit c =>
      simp only [renderChunks] at h
      cases X with
      | nil =>
        simp only [List.nil_append, List.cons.injEq] at h
        obtain ⟨rfl, h⟩ := h
        cases C' with
        | nil => simp [renderChunks] at h
        | cons ch2 C'' =>
          cases ch2 with
          | lit c2 =>
            simp only [renderChunks, List.cons.injEq] at h
            rw [phPairFree_iff] at hfree
            exact absurd ⟨[], flattenChunks C'', by simp [flattenChunks, h.1]⟩ hfree
          | grp g2 =>
            simp only [renderChunks, phToken, List.cons_append, List.cons.injEq] at h
            exact absurd h.1 (by decide)
      | cons x X' =>
        simp only [List.cons_append, List.cons.injEq] at h
        exact ih m X' Y (phPairFree_cons_elim (by simpa [flattenChunks] using hfree)) h.2
    | grp g =>
      have hfree' : phPairFree (flattenChunks C') :=
        (phPairFree_append_elim (by simpa [flattenChunks] using hfree)).2
      simp only [renderChunks, phToken, List.cons_append, List.append_assoc,
        List.singleton_append] at h
      cases X with
      | nil => simp at h
      | cons x1 X1 =>
        simp only [List.cons_append, List.cons.injEq] at h
        obtain ⟨rfl, h⟩ := h
        cases X1 with
        | nil => simp at h
        | cons x2 X2 =>
          simp only [List.cons_append, List.cons.injEq] at h
          obtain ⟨rfl, h⟩ := h
          cases X2 with
          | nil =>
            simp only [List.nil_append, List.cons.injEq, true_and] at h
            exact ⟨m, renderChunks (m + 1) C', le_rfl, h.symm⟩
          | cons x3 X3 =>
            simp only [List.cons_append, List.cons.injEq] at h
            obtain ⟨rfl, h⟩ := h
            cases X3 with
            | nil => simp at h
            | cons x4 X4 =>
              simp only [List.cons_append, List.cons.injEq] at h
              obtain ⟨rfl, h⟩ := h
              have h' : natDigits m ++ '_' :: '_' :: renderChunks (m + 1) C'
                  = X4 ++ 'P' :: 'H' :: Y := by simpa using h
              obtain ⟨X5, _, ht⟩ := digits_split_ph (natDigits m)
                (natDigits_all_digits m) _ X4 Y h'
              obtain ⟨j, Y', hj, hY⟩ := ih (m + 1) X5 Y hfree' ht
              exact ⟨j, Y', by omega, hY⟩

theorem render_no_token {C : List Chunk} {m i : Nat} (hfree : phPairFree (flattenChunks C))
    (him : i < m) : ∀ X Y, renderChunks m C ≠ X ++ phToken i ++ Y := by
  intro X Y h
  have h' : renderChunks m C
      = (X ++ ['_', '_']) ++ 'P' :: 'H' :: (natDigits i ++ '_' :: '_' :: Y) := by
    simpa [phToken, List.append_assoc] using h
  obtain ⟨j, Y', hj, hY⟩ := render_ph_aligned C m _ _ hfree h'
  have : natDigits i ++ '_' :: ('_' :: Y) = natDigits j ++ '_' :: ('_' :: Y') := by
    simpa using hY
  obtain ⟨hd, -⟩ := digits_cancel _ _ _ _ (natDigits_all_digits i) (natDigits_all_digits j) this
  have : i = j := natDigits_inj hd
  omega

theorem phToken_ne_nil (i : Nat) : phToken i ≠ [] := by simp [phToken]

theorem token_no_start_in_free {A : List Char} (R : List Char) (i : Nat)
    (hfree : phPairFree A) :
    ∀ A1 A2, A = A1 ++ A2 → A2 ≠ [] →
    listStartsWith (phToken i) (A2 ++ (phToken i ++ R)) = false := by
  intro A1 A2 hA h2
  by_contra hne
  obtain ⟨t, ht⟩ := (listStartsWith_iff _ _).mp (Bool.of_not_eq_false hne)
  rw [phPairFree_iff] at hfree
  cases A2 with
  | nil => exact h2 rfl
  | cons a1 A3 =>
    simp only [phToken, List.cons_append, List.append_assoc, List.singleton_append,
      List.cons.injEq] at ht
    obtain ⟨rfl, ht⟩ := ht
    cases A3 with
    | nil =>
      simp only [List.nil_append, List.cons_append, List.cons.injEq] at ht
      exact absurd ht.2.1 (by decide)
    | cons a2 A4 =>
      simp only [List.cons_append, List.cons.injEq] at ht
      obtain ⟨rfl, ht⟩ := ht
      cases A4 with
      | nil =>
        simp only [List.nil_append, List.cons_append, List.cons.injEq] at ht
        exact absurd ht.1 (by decide)
      | cons a3 A5 =>
        simp only [List.cons_append, List.cons.injEq] at ht
        obtain ⟨rfl, ht⟩ := ht
        cases A5 with
        | nil =>
          simp only [List.nil_append, List.cons_append, List.cons.injEq] at ht
          exact absurd ht.1 (by decide)
        | cons a4 A6 =>
          simp only [List.cons_append, List.cons.injEq] at ht
          obtain ⟨rfl, -⟩ := ht
          exact hfree ⟨A1 ++ ['_', '_'], A6, by simp [hA]⟩

theorem pyReplace_token (A R g : List Char) (i : Nat) (hfreeA : phPairFree A)
    (hnoR : ∀ X Y, R ≠ X ++ phToken i ++ Y) :
    pyReplace (A ++ phToken i ++ R) (phToken i) g = A ++ (g ++ R) := by
  have hassoc : A ++ phToken i ++ R = A ++ (phToken i ++ R) := by
    rw [List.append_assoc]
  have hlen : (A ++ phToken i ++ R).length = A.length + (phToken i ++ R).length := by
    rw [hassoc, List.length_append]
  rw [pyReplace, hlen, hassoc,
    pyReplaceGo_skip (phToken i) g A ((phToken i ++ R).length) (phToken i ++ R)
      (token_no_start_in_free R i hfreeA)]
  have htok : 1 ≤ (phToken i).length := List.length_pos.mpr (phToken_ne_nil i)
  have hlen2 : (phToken i ++ R).length = ((phToken i).length - 1 + R.length) + 1 := by
    rw [List.length_append]; omega
  rw [hlen2, pyReplaceGo_consume (phToken i) g (phToken_ne_nil i) _ R,
    pyReplaceGo_noOcc (phToken i) g _ R hnoR]

theorem unmaskGo_chunks : ∀ (C : List Chunk) (A orig : List Char) (i : Nat),
    phPairFree (A ++ flattenChunks C) →
    unmaskGo orig (A ++ renderChunks i C) i (groupsOf C) = (true, A ++ flattenChunks C) := by
  intro C
  induction C with
  | nil =>
    intro A orig i hfree
    simp only [renderChunks, groupsOf, List.append_nil, flattenChunks]
    rw [unmaskGo, if_neg]
    intro hc
    obtain ⟨X, Y, hXY⟩ := (containsSub_iff _ _).mp hc
    rw [phPairFree_iff] at hfree
    simp only [flattenChunks, List.append_nil] at hfree
    exact hfree ⟨X ++ ['_', '_'], Y, by
      rw [hXY]
      simp [phMarker]⟩
  | cons ch C' ih =>
    intro A orig i hfree
    cases ch with
    | lit c =>
      have h2 : A ++ flattenChunks (Chunk.lit c :: C') = (A ++ [c]) ++ flattenChunks C' := by
        simp [flattenChunks]
      have h1 : A ++ renderChunks i (Chunk.lit c :: C') = (A ++ [c]) ++ renderChunks i C' := by
        simp [renderChunks]
      rw [h1, show groupsOf (Chunk.lit c :: C') = groupsOf C' from rfl,
        ih (A ++ [c]) orig i (by rw [← h2]; exact hfree), h2]
    | grp g =>
      have hfreeA : phPairFree A := (phPairFree_append_elim hfree).1
      have hfree2 : phPairFree (g ++ flattenChunks C') := by
        have := (phPairFree_append_elim hfree).2
        simpa [flattenChunks] using this
      have hfreeC : phPairFree (flattenChunks C') := (phPairFree_append_elim hfree2).2
      have hout : A ++ renderChunks i (Chunk.grp g :: C')
          = A ++ phToken i ++ renderChunks (i + 1) C' := by
        simp [renderChunks, List.append_assoc]
      rw [show groupsOf (Chunk.grp g :: C') = g :: groupsOf C' from rfl, hout, unmaskGo,
        if_pos (containsSub_of_decomp (phToken i) A (renderChunks (i + 1) C')),
        pyReplace_token A (renderChunks (i + 1) C') g i hfreeA
          (render_no_token hfreeC (Nat.lt_succ_self i)),
        show A ++ (g ++ renderChunks (i + 1) C') = (A ++ g) ++ renderChunks (i + 1) C' by
          rw [List.append_assoc],
        ih (A ++ g) orig (i + 1) (by
          rw [List.append_assoc]
          simpa [flattenChunks] using hfree)]
      rw [show A ++ flattenChunks (Chunk.grp g :: C') = A ++ g ++ flattenChunks C' by
        simp [flattenChunks]]

theorem maskUnmask_list (s : List Char) (hfree : phPairFree s) :
    unmaskGo (maskGo s.length s []).1 (maskGo s.length s []).1 0 (maskGo s.length s []).2
      = (true, s) := by
  obtain ⟨C, hC, hflat⟩ := maskGo_chunks s.length s [] le_rfl
  rw [hC]
  simp only [List.length_nil, List.nil_append]
  have h2 := unmaskGo_chunks C [] (renderChunks 0 C) 0
    (by simpa only [List.nil_append, hflat] using hfree)
  simpa only [List.nil_append, hflat] using h2

/-- C2 (amended): masking then unmasking restores the input exactly, with
success, for every string in which the character pair `"PH"` does not occur
(the pair can collide with the `__PH<i>__` tokens, see the counterexample). -/
theorem C2_mask_unmask_roundtrip (s : String)
    (hfree : containsSub ['P', 'H'] s.data = false) :
    unmaskPlaceholders (maskPlaceholders s).1 (maskPlaceholders s).2 = (true, s) := by
  have hmap : ∀ L : List (List Char), (L.map String.mk).map String.data = L := by
    intro L
    rw [List.map_map]
    exact List.map_id L
  have hl := maskUnmask_list s.data hfree
  unfold unmaskPlaceholders maskPlaceholders
  simp only [hmap]
  rw [hl]

/-- Witness: a concrete string with a brace placeholder round-trips. -/
theorem C2_mask_unmask_roundtrip_witness :
    (containsSub ['P', 'H'] "Hi \x7bname\x7d!".data = false) ∧
      unmaskPlaceholders (maskPlaceholders "Hi \x7bname\x7d!").1
        (maskPlaceholders "Hi \x7bname\x7d!").2 = (true, "Hi \x7bname\x7d!") :=
  ⟨by decide, C2_mask_unmask_roundtrip "Hi \x7bname\x7d!" (by decide)⟩

/-- Counterexample to C2 as stated: for the input `"__PH"` nothing is masked,
yet unmasking reports failure because the marker `"__PH"` is present in the
text, so the round trip does not return success with the input. -/
theorem C2_counterexample :
    ¬ (unmaskPlaceholders (maskPlaceholders "__PH").1 (maskPlaceholders "__PH").2
        = (true, "__PH")) := by decide

/-!  Stripping is idempotent. -/

theorem dropWhile_idem (p : Char → Bool) (l : List Char) :
    (l.dropWhile p).dropWhile p = l.dropWhile p := by
  induction l with
  | nil => rfl
  | cons c t ih =>
    by_cases hc : p c = true
    · simp only [List.dropWhile_cons, hc, if_true]
      exact ih
    · simp only [List.dropWhile_cons, hc, if_false]
      simp [List.dropWhile_cons, hc]

theorem dropWhileLenLe (p : Char → Bool) (l : List Char) :
    (l.dropWhile p).length ≤ l.length := by
  induction l with
  | nil => simp
  | cons c t ih =>
    by_cases hc : p c = true
    · simp only [List.dropWhile_cons, hc, if_true, List.length_cons]
      omega
    · simp [List.dropWhile_cons, hc]

theorem dropWhile_eq_self_of_decomp (p : Char → Bool) (z w : List Char)
    (h : (z ++ w).dropWhile p = z ++ w) : z.dropWhile p = z := by
  cases z with
  | nil => rfl
  | cons c t =>
    have hc : p c = false := by
      by_contra hne
      have hpc : p c = true := by
        cases hpc2 : p c
        · exact absurd hpc2 hne
        · rfl
      simp only [List.cons_append, List.dropWhile_cons, hpc, if_true] at h
      have hlen := dropWhileLenLe p (t ++ w)
      have := congrArg List.length h
      simp only [List.length_cons] at this
      omega
    simp [List.dropWhile_cons, hc]

theorem pyStripList_idem (s : List Char) : pyStripList (pyStripList s) = pyStripList s := by
  unfold pyStripList
  set y := s.dropWhile pyIsSpace with hy
  have hyidem : y.dropWhile pyIsSpace = y := by rw [hy]; exact dropWhile_idem _ _
  set z := (y.reverse.dropWhile pyIsSpace).reverse with hz
  have hdecomp : y = z ++ (y.reverse.takeWhile pyIsSpace).reverse := by
    have := List.takeWhile_append_dropWhile (p := pyIsSpace) (l := y.reverse)
    calc y = y.reverse.reverse := by rw [List.reverse_reverse]
    _ = (y.reverse.takeWhile pyIsSpace ++ y.reverse.dropWhile pyIsSpace).reverse := by
        rw [this]
    _ = z ++ (y.reverse.takeWhile pyIsSpace).reverse := by
        rw [List.reverse_append, hz]
  have hz1 : z.dropWhile pyIsSpace = z := by
    apply dropWhile_eq_self_of_decomp pyIsSpace z ((y.reverse.takeWhile pyIsSpace).reverse)
    rw [← hdecomp]
    exact hyidem
  rw [hz1, hz, List.reverse_reverse, dropWhile_idem]

theorem pyStripStr_idem (s : String) : pyStripStr (pyStripStr s) = pyStripStr s := by
  unfold pyStripStr
  rw [show (String.mk (pyStripList s.data)).data = pyStripList s.data from rfl,
    pyStripList_idem]

/-!  Cache coherence: every cache entry is the (collapsed) service result for
its key, so a cache hit agrees with a fresh call. -/

/-- Every cached entry agrees with the service oracle. -/
def CacheOK (tr : String → Option String) (cache : List (String × String)) : Prop :=
  ∀ k w, (k, w) ∈ cache → serviceResult tr k = some w

theorem CacheOK_nil (tr : String → Option String) : CacheOK tr [] := by
  intro k w h
  exact absurd h (List.not_mem_nil _)

theorem lookup_mem {k : String} {w : String} :
    ∀ {cache : List (String × String)}, List.lookup k cache = some w → (k, w) ∈ cache := by
  intro cache
  induction cache with
  | nil => intro h; exact absurd h (by simp [List.lookup])
  | cons a t ih =>
    intro h
    obtain ⟨a1, a2⟩ := a
    rw [List.lookup] at h
    split at h
    · rename_i hbeq
      simp only [Option.some.injEq] at h
      have : k = a1 := eq_of_beq hbeq
      subst this
      subst h
      exact List.mem_cons_self _ _
    · exact List.mem_cons_of_mem _ (ih h)

theorem translateWithRetries_spec (tr : String → Option String) (text : String)
    (cache : List (String × String)) (hok : CacheOK tr cache) :
    CacheOK tr (translateWithRetries tr text cache).2.2 ∧
    ((translateWithRetries tr text cache).1 = true →
      serviceResult tr text = some (translateWithRetries tr text cache).2.1) := by
  unfold translateWithRetries
  cases hl : List.lookup text cache with
  | some w =>
    exact ⟨hok, fun _ => hok text w (lookup_mem hl)⟩
  | none =>
    cases htr : tr text with
    | some raw =>
      by_cases hemp : pyStripStr raw = ""
      · simp only [hemp, if_pos rfl]
        exact ⟨hok, fun h => absurd h (by simp)⟩
      · simp only [if_neg hemp]
        constructor
        · intro k w hmem
          rcases List.mem_cons.mp hmem with heq | hmem2
          · obtain ⟨rfl, rfl⟩ := Prod.mk.injEq .. ▸ heq
            simp [serviceResult, htr, hemp]
          · exact hok k w hmem2
        · intro _
          simp [serviceResult, htr, hemp]
    | none =>
      exact ⟨hok, fun h => absurd h (by simp)⟩

/-!  Case behaviour of one entry. -/

/-- Let-free unfolding of `processEntry` (the sequential updates composed),
used so that case splitting can follow the branch structure. -/
theorem processEntry_unfold (ar : Args) (tr : String → Option String) (st : RunState)
    (fp o : String) (v : Option String) :
    processEntry ar tr st fp o v =
    (if st.stop then (st, v)
     else if !emptyVal v then (st, v)
     else if !containsLetters o then
       ({ st with
          stats := { st.stats with
            scanned_empty := st.stats.scanned_empty + 1,
            skipped_high_risk := st.stats.skipped_high_risk + 1 } }, v)
     else if isHighRisk o then
       ({ st with
          stats := { st.stats with
            scanned_empty := st.stats.scanned_empty + 1,
            skipped_high_risk := st.stats.skipped_high_risk + 1 } }, v)
     else if ar.requireUppercaseStart &&
         !(uppercaseStart o || SAFE_SINGLE_WORDS.contains (pyStripStr o)) then
       ({ st with
          stats := { st.stats with
            scanned_empty := st.stats.scanned_empty + 1,
            skipped_not_uiish := st.stats.skipped_not_uiish + 1 } }, v)
     else if !(translateWithRetries tr (maskPlaceholders o).1 st.cache).1 then
       ({ st with
          stats := { st.stats with
            scanned_empty := st.stats.scanned_empty + 1,
            eligible := st.stats.eligible + 1,
            skipped_translation_failed := st.stats.skipped_translation_failed + 1 },
          cache := (translateWithRetries tr (maskPlaceholders o).1 st.cache).2.2,
          attempted := st.attempted ++ [(fp, o)] }, v)
     else if !(unmaskPlaceholders (translateWithRetries tr (maskPlaceholders o).1 st.cache).2.1
         (maskPlaceholders o).2).1 then
       ({ st with
          stats := { st.stats with
            scanned_empty := st.stats.scanned_empty + 1,
            eligible := st.stats.eligible + 1,
            skipped_translation_failed := st.stats.skipped_translation_failed + 1 },
          cache := (translateWithRetries tr (maskPlaceholders o).1 st.cache).2.2,
          attempted := st.attempted ++ [(fp, o)] }, v)
     else if !hasCJK (pyStripStr
         (unmaskPlaceholders (translateWithRetries tr (maskPlaceholders o).1 st.cache).2.1
           (maskPlaceholders o).2).2) then
       ({ st with
          stats := { st.stats with
            scanned_empty := st.stats.scanned_empty + 1,
            eligible := st.stats.eligible + 1,
            skipped_no_chinese := st.stats.skipped_no_chinese + 1 },
          cache := (translateWithRetries tr (maskPlaceholders o).1 st.cache).2.2,
          attempted := st.attempted ++ [(fp, o)] }, v)
     else
       ({ st with
          stats := { st.stats with
            scanned_empty := st.stats.scanned_empty + 1,
            eligible := st.stats.eligible + 1,
            filled := st.stats.filled + 1 },
          cache := (translateWithRetries tr (maskPlaceholders o).1 st.cache).2.2,
          filled := st.filled + 1,
          attempted := st.attempted ++ [(fp, o)],
          stop := decide ((((st.filled + 1 : Nat)) : Int) ≥ ar.maxFill) },
        some (pyStripStr
          (unmaskPlaceholders (translateWithRetries tr (maskPlaceholders o).1 st.cache).2.1
            (maskPlaceholders o).2).2))) := rfl

theorem processEntry_stop {ar : Args} {tr : String → Option String} {st : RunState}
    {fp o : String} {v : Option String} (h : st.stop = true) :
    processEntry ar tr st fp o v = (st, v) := by
  unfold processEntry
  rw [if_pos h]

theorem processEntry_keep {ar : Args} {tr : String → Option String} {st : RunState}
    {fp o : String} {v : Option String} (h : emptyVal v = false) :
    processEntry ar tr st fp o v = (st, v) := by
  unfold processEntry
  rw [h]
  simp

theorem processEntry_snd_highRisk {ar : Args} {tr : String → Option String} {st : RunState}
    {fp o : String} {v : Option String}
    (h : containsLetters o = false ∨ isHighRisk o = true) :
    (processEntry ar tr st fp o v).2 = v := by
  unfold processEntry
  split
  · rfl
  · split
    · rfl
    · split
      · rfl
      · split
        · rfl
        · rename_i h3 h4
          rcases h with hl | hr
          · exact absurd (by simp [hl]) h3
          · exact absurd (by simp [hr]) h4

theorem processEntry_snd_notUiish {ar : Args} {tr : String → Option String} {st : RunState}
    {fp o : String} {v : Option String} (hflag : ar.requireUppercaseStart = true)
    (hup : uppercaseStart o = false)
    (hsafe : SAFE_SINGLE_WORDS.contains (pyStripStr o) = false) :
    (processEntry ar tr st fp o v).2 = v := by
  unfold processEntry
  split
  · rfl
  · split
    · rfl
    · split
      · rfl
      · split
        · rfl
        · have hsafe2 : ¬ (pyStripStr o ∈ SAFE_SINGLE_WORDS) := by simpa using hsafe
          simp [hflag, hup, hsafe2]

theorem processEntry_notUiish_eq {ar : Args} {tr : String → Option String} {st : RunState}
    {fp o : String} {v : Option String} (hstop : st.stop = false) (hv : emptyVal v = true)
    (hlet : containsLetters o = true) (hrisk : isHighRisk o = false)
    (hflag : ar.requireUppercaseStart = true) (hup : uppercaseStart o = false)
    (hsafe : SAFE_SINGLE_WORDS.contains (pyStripStr o) = false) :
    processEntry ar tr st fp o v =
      ({ st with stats := { st.stats with
          scanned_empty := st.stats.scanned_empty + 1,
          skipped_not_uiish := st.stats.skipped_not_uiish + 1 } }, v) := by
  obtain ⟨⟨a1, a2, a3, a4, a5, a6, a7, a8⟩, cache, filled, att, stop⟩ := st
  simp only at hstop
  subst hstop
  unfold processEntry
  have hsafe2 : ¬ (pyStripStr o ∈ SAFE_SINGLE_WORDS) := by simpa using hsafe
  simp [hv, hlet, hrisk, hflag, hup, hsafe2]

theorem translateWithRetries_of_service {tr : String → Option String} {text : String}
    {cache : List (String × String)} {t : String} (hok : CacheOK tr cache)
    (h : serviceResult tr text = some t) :
    (translateWithRetries tr text cache).1 = true ∧
      (translateWithRetries tr text cache).2.1 = t := by
  unfold translateWithRetries
  cases hl : List.lookup text cache with
  | some w =>
    have := hok text w (lookup_mem hl)
    rw [this] at h
    simp only [Option.some.injEq] at h
    exact ⟨rfl, h⟩
  | none =>
    unfold serviceResult at h
    cases htr : tr text with
    | some raw =>
      rw [htr] at h
      simp only at h
      split at h
      · exact absurd h (by simp)
      · rename_i hemp
        simp only [Option.some.injEq] at h
        simp only [if_neg hemp]
        exact ⟨by trivial, h⟩
    | none =>
      rw [htr] at h
      exact absurd h (by simp)

theorem hasCJK_ne_empty {u : String} (h : hasCJK u = true) : u ≠ "" := by
  intro he
  subst he
  exact absurd h (by decide)

theorem processEntry_attempted (ar : Args) (tr : String → Option String) (st : RunState)
    (fp o : String) (v : Option String) :
    (processEntry ar tr st fp o v).1.attempted = st.attempted ∨
    ((processEntry ar tr st fp o v).1.attempted = st.attempted ++ [(fp, o)] ∧
      emptyVal v = true ∧ containsLetters o = true ∧ isHighRisk o = false ∧
      (ar.requireUppercaseStart = true →
        (uppercaseStart o = true ∨ SAFE_SINGLE_WORDS.contains (pyStripStr o) = true))) := by
  rw [processEntry_unfold]
  split
  · exact Or.inl rfl
  split
  · exact Or.inl rfl
  split
  · exact Or.inl rfl
  split
  · exact Or.inl rfl
  rename_i h1 h2 h3 h4
  split
  · exact Or.inl rfl
  rename_i h5
  have hv : emptyVal v = true := by
    revert h2
    cases emptyVal v <;> simp
  have hlet : containsLetters o = true := by
    revert h3
    cases containsLetters o <;> simp
  have hrisk : isHighRisk o = false := by simpa using h4
  have huiish : ar.requireUppercaseStart = true →
      (uppercaseStart o = true ∨ SAFE_SINGLE_WORDS.contains (pyStripStr o) = true) := by
    intro hf
    rw [hf] at h5
    have hor : (uppercaseStart o || SAFE_SINGLE_WORDS.contains (pyStripStr o)) = true := by
      revert h5
      cases (uppercaseStart o || SAFE_SINGLE_WORDS.contains (pyStripStr o)) <;> simp
    simpa using hor
  split
  · exact Or.inr ⟨rfl, hv, hlet, hrisk, huiish⟩
  split
  · exact Or.inr ⟨rfl, hv, hlet, hrisk, huiish⟩
  split
  · exact Or.inr ⟨rfl, hv, hlet, hrisk, huiish⟩
  · exact Or.inr ⟨rfl, hv, hlet, hrisk, huiish⟩

theorem processEntry_outcome (ar : Args) (tr : String → Option String) (st : RunState)
    (fp o : String) (v : Option String) (hc : CacheOK tr st.cache) :
    ((processEntry ar tr st fp o v).2 = v ∧
      (processEntry ar tr st fp o v).1.filled = st.filled ∧
      (processEntry ar tr st fp o v).1.stop = st.stop) ∨
    (emptyVal v = true ∧ st.stop = false ∧
      (∃ t u, serviceResult tr (maskPlaceholders o).1 = some t ∧
        unmaskPlaceholders t (maskPlaceholders o).2 = (true, u) ∧
        (processEntry ar tr st fp o v).2 = some (pyStripStr u) ∧
        hasCJK (pyStripStr u) = true) ∧
      (processEntry ar tr st fp o v).1.filled = st.filled + 1 ∧
      ((processEntry ar tr st fp o v).1.stop = true ↔
        ar.maxFill ≤ (st.filled : Int) + 1)) := by
  rcases hE : processEntry ar tr st fp o v with ⟨stO, vO⟩
  rw [processEntry_unfold] at hE
  split at hE
  · injection hE with hs hv2
    subst hs; subst hv2
    exact Or.inl ⟨rfl, rfl, rfl⟩
  split at hE
  · injection hE with hs hv2
    subst hs; subst hv2
    exact Or.inl ⟨rfl, rfl, rfl⟩
  split at hE
  · injection hE with hs hv2
    subst hs; subst hv2
    exact Or.inl ⟨rfl, rfl, rfl⟩
  split at hE
  · injection hE with hs hv2
    subst hs; subst hv2
    exact Or.inl ⟨rfl, rfl, rfl⟩
  rename_i h1 h2 h3 h4
  split at hE
  · injection hE with hs hv2
    subst hs; subst hv2
    exact Or.inl ⟨rfl, rfl, rfl⟩
  rename_i h5
  have hv : emptyVal v = true := by
    revert h2
    cases emptyVal v <;> simp
  have hstop : st.stop = false := by simpa using h1
  split at hE
  · injection hE with hs hv2
    subst hs; subst hv2
    exact Or.inl ⟨rfl, rfl, rfl⟩
  rename_i h6
  split at hE
  · injection hE with hs hv2
    subst hs; subst hv2
    exact Or.inl ⟨rfl, rfl, rfl⟩
  rename_i h7
  split at hE
  · injection hE with hs hv2
    subst hs; subst hv2
    exact Or.inl ⟨rfl, rfl, rfl⟩
  rename_i h8
  injection hE with hs hv2
  subst hs; subst hv2
  have htr1 : (translateWithRetries tr (maskPlaceholders o).1 st.cache).1 = true := by
    revert h6
    cases (translateWithRetries tr (maskPlaceholders o).1 st.cache).1 <;> simp
  have hsv := (translateWithRetries_spec tr (maskPlaceholders o).1 st.cache hc).2 htr1
  have hum1 : (unmaskPlaceholders (translateWithRetries tr (maskPlaceholders o).1 st.cache).2.1
      (maskPlaceholders o).2).1 = true := by
    revert h7
    cases (unmaskPlaceholders (translateWithRetries tr (maskPlaceholders o).1 st.cache).2.1
      (maskPlaceholders o).2).1 <;> simp
  have hcjk : hasCJK (pyStripStr
      (unmaskPlaceholders (translateWithRetries tr (maskPlaceholders o).1 st.cache).2.1
        (maskPlaceholders o).2).2) = true := by
    revert h8
    cases hasCJK (pyStripStr
      (unmaskPlaceholders (translateWithRetries tr (maskPlaceholders o).1 st.cache).2.1
        (maskPlaceholders o).2).2) <;> simp
  refine Or.inr ⟨hv, hstop, ?_, rfl, ?_⟩
  · refine ⟨(translateWithRetries tr (maskPlaceholders o).1 st.cache).2.1,
      (unmaskPlaceholders (translateWithRetries tr (maskPlaceholders o).1 st.cache).2.1
        (maskPlaceholders o).2).2, hsv, ?_, rfl, hcjk⟩
    rw [show ((true : Bool),
        (unmaskPlaceholders (translateWithRetries tr (maskPlaceholders o).1 st.cache).2.1
          (maskPlaceholders o).2).2)
        = ((unmaskPlaceholders (translateWithRetries tr (maskPlaceholders o).1 st.cache).2.1
          (maskPlaceholders o).2).1,
        (unmaskPlaceholders (translateWithRetries tr (maskPlaceholders o).1 st.cache).2.1
          (maskPlaceholders o).2).2) from by rw [hum1]]
  · simp only [decide_eq_true_eq]
    omega

theorem processEntry_cacheOK (ar : Args) (tr : String → Option String) (st : RunState)
    (fp o : String) (v : Option String) (hc : CacheOK tr st.cache) :
    CacheOK tr (processEntry ar tr st fp o v).1.cache := by
  rw [processEntry_unfold]
  split
  · exact hc
  split
  · exact hc
  split
  · exact hc
  split
  · exact hc
  split
  · exact hc
  split
  · exact (translateWithRetries_spec tr (maskPlaceholders o).1 st.cache hc).1
  split
  · exact (translateWithRetries_spec tr (maskPlaceholders o).1 st.cache hc).1
  split
  · exact (translateWithRetries_spec tr (maskPlaceholders o).1 st.cache hc).1
  · exact (translateWithRetries_spec tr (maskPlaceholders o).1 st.cache hc).1

/-- The two partition equations over the outcome counters (claim C9's
invariant), as a predicate on a `Stats` value. -/
def statsPartition (s : Stats) : Prop :=
  s.scanned_empty = s.filled + s.skipped_high_risk + s.skipped_not_whitelisted +
    s.skipped_not_uiish + s.skipped_translation_failed + s.skipped_no_chinese ∧
  s.eligible = s.filled + s.skipped_translation_failed + s.skipped_no_chinese

theorem processEntry_stats (ar : Args) (tr : String → Option String) (st : RunState)
    (fp o : String) (v : Option String) (h : statsPartition st.stats) :
    statsPartition (processEntry ar tr st fp o v).1.stats := by
  obtain ⟨h1, h2⟩ := h
  rw [processEntry_unfold]
  split
  · exact ⟨h1, h2⟩
  split
  · exact ⟨h1, h2⟩
  split
  · exact ⟨by dsimp only; omega, by dsimp only; omega⟩
  split
  · exact ⟨by dsimp only; omega, by dsimp only; omega⟩
  split
  · exact ⟨by dsimp only; omega, by dsimp only; omega⟩
  split
  · exact ⟨by dsimp only; omega, by dsimp only; omega⟩
  split
  · exact ⟨by dsimp only; omega, by dsimp only; omega⟩
  split
  · exact ⟨by dsimp only; omega, by dsimp only; omega⟩
  · exact ⟨by dsimp only; omega, by dsimp only; omega⟩

theorem processEntry_noChinese (ar : Args) (tr : String → Option String) (st : RunState)
    (fp o : String) (v : Option String) (t u : String)
    (hstop : st.stop = false) (hv : emptyVal v = true)
    (hlet : containsLetters o = true) (hrisk : isHighRisk o = false)
    (hui : ar.requireUppercaseStart = true →
      (uppercaseStart o = true ∨ SAFE_SINGLE_WORDS.contains (pyStripStr o) = true))
    (hc : CacheOK tr st.cache)
    (hsv : serviceResult tr (maskPlaceholders o).1 = some t)
    (hum : unmaskPlaceholders t (maskPlaceholders o).2 = (true, u))
    (hcjk : hasCJK (pyStripStr u) = false) :
    (processEntry ar tr st fp o v).2 = v ∧
    (processEntry ar tr st fp o v).1.stats.skipped_no_chinese
      = st.stats.skipped_no_chinese + 1 ∧
    (processEntry ar tr st fp o v).1.stats.scanned_empty = st.stats.scanned_empty + 1 ∧
    (processEntry ar tr st fp o v).1.stats.eligible = st.stats.eligible + 1 := by
  have htw := translateWithRetries_of_service hc hsv
  have hui2 : (ar.requireUppercaseStart &&
      !(uppercaseStart o || SAFE_SINGLE_WORDS.contains (pyStripStr o))) = false := by
    cases hf : ar.requireUppercaseStart with
    | false => simp
    | true =>
      rcases hui hf with hx | hx
      · simp [hx]
      · have hx2 : pyStripStr o ∈ SAFE_SINGLE_WORDS := by simpa using hx
        simp [hx2]
  rw [processEntry_unfold, if_neg (by simp [hstop]), if_neg (by simp [hv]),
    if_neg (by simp [hlet]), if_neg (by simp [hrisk]), if_neg (by rw [hui2]; simp),
    if_neg (by simp [htw.1]), htw.2, hum]
  rw [if_neg (by simp), if_pos (by simp [hcjk])]
  exact ⟨rfl, rfl, rfl, rfl⟩

/-!  Induction layer over one mapping and over the whole document. -/

/-- An invariant preserved by every entry step. -/
def PreservedPE (ar : Args) (tr : String → Option String) (I : RunState → Prop) : Prop :=
  ∀ st fp o v, I st → I (processEntry ar tr st fp o v).1

theorem processMapping_inv {ar : Args} {tr : String → Option String} {fp : String}
    {I : RunState → Prop} (hI : PreservedPE ar tr I) :
    ∀ (m : List (String × Option String)) (st : RunState), I st →
      I (processMapping ar tr fp st m).1 := by
  intro m
  induction m with
  | nil => intro st h; exact h
  | cons e rest ih =>
    intro st h
    obtain ⟨o, v⟩ := e
    exact ih (processEntry ar tr st fp o v).1 (hI st fp o v h)

theorem processMapping_keys (ar : Args) (tr : String → Option String) (fp : String) :
    ∀ (m : List (String × Option String)) (st : RunState),
      (processMapping ar tr fp st m).2.map Prod.fst = m.map Prod.fst := by
  intro m
  induction m with
  | nil => intro st; rfl
  | cons e rest ih =>
    intro st
    obtain ⟨o, v⟩ := e
    simp only [processMapping, List.map_cons, List.cons.injEq]
    exact ⟨trivial, ih _⟩

theorem processMapping_get {ar : Args} {tr : String → Option String} {fp : String}
    {I : RunState → Prop} (hI : PreservedPE ar tr I) :
    ∀ (m : List (String × Option String)) (st : RunState), I st →
      ∀ (k : Nat) (o : String) (v : Option String), m.get? k = some (o, v) →
        ∃ st', I st' ∧
          (processMapping ar tr fp st m).2.get? k
            = some (o, (processEntry ar tr st' fp o v).2) := by
  intro m
  induction m with
  | nil =>
    intro st _ k o v h
    exact absurd h (by simp)
  | cons e rest ih =>
    intro st hst k o v h
    obtain ⟨o0, v0⟩ := e
    cases k with
    | zero =>
      simp only [List.get?] at h
      injection h with h
      injection h with h1 h2
      subst h1; subst h2
      exact ⟨st, hst, rfl⟩
    | succ k =>
      simp only [List.get?] at h
      exact ih (processEntry ar tr st fp o0 v0).1 (hI st fp o0 v0 hst) k o v h

theorem processMapping_attempted_mem {ar : Args} {tr : String → Option String} {fp : String} :
    ∀ (m : List (String × Option String)) (st : RunState) (pr : String × String),
      pr ∈ (processMapping ar tr fp st m).1.attempted →
      pr ∈ st.attempted ∨
        (pr.1 = fp ∧ containsLetters pr.2 = true ∧ isHighRisk pr.2 = false ∧
          (ar.requireUppercaseStart = true →
            (uppercaseStart pr.2 = true ∨
              SAFE_SINGLE_WORDS.contains (pyStripStr pr.2) = true))) := by
  intro m
  induction m with
  | nil => intro st pr h; exact Or.inl h
  | cons e rest ih =>
    intro st pr h
    obtain ⟨o0, v0⟩ := e
    rcases ih (processEntry ar tr st fp o0 v0).1 pr h with h1 | h1
    · rcases processEntry_attempted ar tr st fp o0 v0 with h2 | h2
      · rw [h2] at h1
        exact Or.inl h1
      · rw [h2.1] at h1
        rcases List.mem_append.mp h1 with h3 | h3
        · exact Or.inl h3
        · simp only [List.mem_singleton] at h3
          subst h3
          exact Or.inr ⟨rfl, h2.2.2.1, h2.2.2.2.1, h2.2.2.2.2⟩
    · exact Or.inr h1

/-- Number of entries whose value differs between two mappings (compared
positionally). -/
def changedCount : List (String × Option String) → List (String × Option String) → Nat
  | (_, v) :: r, (_, v') :: r' => (if v' = v then 0 else 1) + changedCount r r'
  | _, _ => 0

theorem changedCount_self : ∀ m : List (String × Option String), changedCount m m = 0 := by
  intro m
  induction m with
  | nil => rfl
  | cons e rest ih =>
    obtain ⟨o, v⟩ := e
    simp [changedCount, ih]

theorem processMapping_filled {ar : Args} {tr : String → Option String} {fp : String} :
    ∀ (m : List (String × Option String)) (st : RunState), CacheOK tr st.cache →
      (processMapping ar tr fp st m).1.filled
        = st.filled + changedCount m (processMapping ar tr fp st m).2 := by
  intro m
  induction m with
  | nil => intro st _; simp [processMapping, changedCount]
  | cons e rest ih =>
    intro st hc
    obtain ⟨o0, v0⟩ := e
    have hrec := ih (processEntry ar tr st fp o0 v0).1 (processEntry_cacheOK ar tr st fp o0 v0 hc)
    rcases processEntry_outcome ar tr st fp o0 v0 hc with hcase | hcase
    · simp only [processMapping, changedCount]
      rw [hrec, hcase.2.1, if_pos hcase.1]
      omega
    · obtain ⟨hv0e, -, ⟨t, u, -, -, hval, hcjk⟩, hfil, -⟩ := hcase
      have hvne : (processEntry ar tr st fp o0 v0).2 ≠ v0 := by
        rw [hval]
        have hue : pyStripStr u ≠ "" := hasCJK_ne_empty hcjk
        rcases v0 with - | s
        · simp
        · have hs : s = "" := by simpa [emptyVal] using hv0e
          subst hs
          intro hx
          injection hx with hx
          exact hue hx
      simp only [processMapping, changedCount]
      rw [hrec, hfil, if_neg hvne]
      omega

/-!  Document-level induction. -/

/-- What happens to one top-level value when the outer loop reaches it in
state `st`. -/
def docStep (ar : Args) (wl : List String) (tr : String → Option String) (st : RunState)
    (fp : String) (mv : MapVal) : MapVal :=
  if st.stop then mv
  else
    match mv with
    | .nondict => mv
    | .obj m =>
      if !pathWhitelisted fp wl then mv else .obj (processMapping ar tr fp st m).2

/-- Unfolding of `processDoc` on a cons cell (sequential lets composed). -/
theorem processDoc_cons (ar : Args) (wl : List String) (tr : String → Option String)
    (st : RunState) (fp : String) (mv : MapVal) (rest : List (String × MapVal)) :
    processDoc ar wl tr st ((fp, mv) :: rest) =
    (if st.stop then (st, (fp, mv) :: rest)
     else
       match mv with
       | .nondict =>
         ((processDoc ar wl tr st rest).1, (fp, mv) :: (processDoc ar wl tr st rest).2)
       | .obj m =>
         if !pathWhitelisted fp wl then
           ((processDoc ar wl tr (notWhitelistedBump st m) rest).1,
            (fp, MapVal.obj m) :: (processDoc ar wl tr (notWhitelistedBump st m) rest).2)
         else
           ((processDoc ar wl tr
               (if (((processMapping ar tr fp st m).1.filled : Int) ≥ ar.maxFill : Bool) then
                 { (processMapping ar tr fp st m).1 with stop := true }
                else (processMapping ar tr fp st m).1) rest).1,
            (fp, MapVal.obj (processMapping ar tr fp st m).2) ::
              (processDoc ar wl tr
                (if (((processMapping ar tr fp st m).1.filled : Int) ≥ ar.maxFill : Bool) then
                  { (processMapping ar tr fp st m).1 with stop := true }
                 else (processMapping ar tr fp st m).1) rest).2)) := rfl

theorem processDoc_inv {ar : Args} {wl : List String} {tr : String → Option String}
    {I : RunState → Prop} (hI : PreservedPE ar tr I)
    (hBump : ∀ st m, I st → I (notWhitelistedBump st m))
    (hStop : ∀ st, I st → I { st with stop := true }) :
    ∀ (doc : List (String × MapVal)) (st : RunState), I st →
      I (processDoc ar wl tr st doc).1 := by
  intro doc
  induction doc with
  | nil => intro st h; exact h
  | cons e rest ih =>
    intro st h
    obtain ⟨fp, mv⟩ := e
    rw [processDoc_cons]
    split
    · exact h
    split
    · exact ih st h
    rename_i m
    split
    · exact ih (notWhitelistedBump st m) (hBump st m h)
    have hpm : I (processMapping ar tr fp st m).1 := processMapping_inv hI m st h
    split
    · exact ih { (processMapping ar tr fp st m).1 with stop := true } (hStop _ hpm)
    · exact ih (processMapping ar tr fp st m).1 hpm

theorem processDoc_get {ar : Args} {wl : List String} {tr : String → Option String}
    {I : RunState → Prop} (hI : PreservedPE ar tr I)
    (hBump : ∀ st m, I st → I (notWhitelistedBump st m))
    (hStop : ∀ st, I st → I { st with stop := true }) :
    ∀ (doc : List (String × MapVal)) (st : RunState), I st →
      ∀ (k : Nat) (fp : String) (mv : MapVal), doc.get? k = some (fp, mv) →
        ∃ st', I st' ∧
          (processDoc ar wl tr st doc).2.get? k = some (fp, docStep ar wl tr st' fp mv) := by
  intro doc
  induction doc with
  | nil =>
    intro st _ k fp mv h
    exact absurd h (by simp)
  | cons e rest ih =>
    intro st hst k fp0 mv0 h
    obtain ⟨fp, mv⟩ := e
    rw [processDoc_cons]
    split
    · rename_i hstop
      refine ⟨st, hst, ?_⟩
      rw [show docStep ar wl tr st fp0 mv0 = mv0 from by unfold docStep; rw [if_pos hstop]]
      exact h
    rename_i hstop
    have hstopf : st.stop = false := by simpa using hstop
    cases k with
    | zero =>
      simp only [List.get?] at h
      injection h with h
      injection h with h1 h2
      subst h1; subst h2
      split
      · refine ⟨st, hst, ?_⟩
        simp only [List.get?]
        unfold docStep
        rw [if_neg (by simp [hstopf])]
      rename_i m
      split
      · rename_i hwl
        refine ⟨st, hst, ?_⟩
        simp only [List.get?]
        unfold docStep
        rw [if_neg (by simp [hstopf])]
        simp only [hwl, if_true]
      · rename_i hwl
        refine ⟨st, hst, ?_⟩
        simp only [List.get?]
        unfold docStep
        rw [if_neg (by simp [hstopf])]
        simp only [if_neg hwl]
    | succ k =>
      simp only [List.get?] at h
      split
      · obtain ⟨st', hst', hres⟩ := ih st hst k fp0 mv0 h
        exact ⟨st', hst', by simpa using hres⟩
      rename_i m
      split
      · obtain ⟨st', hst', hres⟩ := ih (notWhitelistedBump st m) (hBump st m hst) k fp0 mv0 h
        exact ⟨st', hst', by simpa using hres⟩
      have hpm : I (processMapping ar tr fp st m).1 := processMapping_inv hI m st hst
      split
      · obtain ⟨st', hst', hres⟩ :=
          ih { (processMapping ar tr fp st m).1 with stop := true } (hStop _ hpm) k fp0 mv0 h
        exact ⟨st', hst', by simpa using hres⟩
      · obtain ⟨st', hst', hres⟩ := ih (processMapping ar tr fp st m).1 hpm k fp0 mv0 h
        exact ⟨st', hst', by simpa using hres⟩

theorem processDoc_attempted_mem {ar : Args} {wl : List String} {tr : String → Option String} :
    ∀ (doc : List (String × MapVal)) (st : RunState) (pr : String × String),
      pr ∈ (processDoc ar wl tr st doc).1.attempted →
      pr ∈ st.attempted ∨
        (pathWhitelisted pr.1 wl = true ∧ containsLetters pr.2 = true ∧
          isHighRisk pr.2 = false ∧
          (ar.requireUppercaseStart = true →
            (uppercaseStart pr.2 = true ∨
              SAFE_SINGLE_WORDS.contains (pyStripStr pr.2) = true))) := by
  intro doc
  induction doc with
  | nil => intro st pr h; exact Or.inl h
  | cons e rest ih =>
    intro st pr h
    obtain ⟨fp, mv⟩ := e
    rw [processDoc_cons] at h
    split at h
    · exact Or.inl h
    split at h
    · exact ih st pr h
    rename_i hstop m
    split at h
    · rcases ih (notWhitelistedBump st m) pr h with h1 | h1
      · exact Or.inl h1
      · exact Or.inr h1
    · rename_i hwl
      have hwl2 : pathWhitelisted fp wl = true := by
        revert hwl
        cases pathWhitelisted fp wl <;> simp
      have hst2att : (if (((processMapping ar tr fp st m).1.filled : Int) ≥ ar.maxFill : Bool)
          then { (processMapping ar tr fp st m).1 with stop := true }
          else (processMapping ar tr fp st m).1).attempted
          = (processMapping ar tr fp st m).1.attempted := by
        split <;> rfl
      rcases ih _ pr h with h1 | h1
      · rw [hst2att] at h1
        rcases processMapping_attempted_mem m st pr h1 with h2 | h2
        · exact Or.inl h2
        · exact Or.inr ⟨h2.1 ▸ hwl2, h2.2.1, h2.2.2.1, h2.2.2.2⟩
      · exact Or.inr h1

/-- Positional count of changed entries between input and output documents. -/
def docChangedCount : List (String × MapVal) → List (String × MapVal) → Nat
  | (_, .obj m) :: r, (_, .obj m') :: r' => changedCount m m' + docChangedCount r r'
  | _ :: r, _ :: r' => docChangedCount r r'
  | _, _ => 0

theorem docChangedCount_self : ∀ doc : List (String × MapVal), docChangedCount doc doc = 0 := by
  intro doc
  induction doc with
  | nil => rfl
  | cons e rest ih =>
    obtain ⟨fp, mv⟩ := e
    cases mv with
    | obj m =>
      show changedCount m m + docChangedCount rest rest = 0
      rw [changedCount_self, ih]
    | nondict =>
      show docChangedCount rest rest = 0
      exact ih

theorem stop_set_cache (s : RunState) : ({ s with stop := true } : RunState).cache = s.cache :=
  rfl

theorem cacheOK_PE (ar : Args) (tr : String → Option String) :
    PreservedPE ar tr (fun s => CacheOK tr s.cache) :=
  fun st fp o v h => processEntry_cacheOK ar tr st fp o v h

theorem processDoc_filled {ar : Args} {wl : List String} {tr : String → Option String} :
    ∀ (doc : List (String × MapVal)) (st : RunState), CacheOK tr st.cache →
      (processDoc ar wl tr st doc).1.filled
        = st.filled + docChangedCount doc (processDoc ar wl tr st doc).2 := by
  intro doc
  induction doc with
  | nil => intro st _; simp [processDoc, docChangedCount]
  | cons e rest ih =>
    intro st hc
    obtain ⟨fp, mv⟩ := e
    rw [processDoc_cons]
    split
    · rw [docChangedCount_self]
      rfl
    split
    · -- nondict
      have := ih st hc
      show (processDoc ar wl tr st rest).1.filled
        = st.filled + docChangedCount ((fp, MapVal.nondict) :: rest)
            ((fp, MapVal.nondict) :: (processDoc ar wl tr st rest).2)
      rw [show docChangedCount ((fp, MapVal.nondict) :: rest)
          ((fp, MapVal.nondict) :: (processDoc ar wl tr st rest).2)
          = docChangedCount rest (processDoc ar wl tr st rest).2 from rfl]
      exact this
    rename_i m
    split
    · -- not whitelisted
      have := ih (notWhitelistedBump st m) hc
      rw [show docChangedCount ((fp, MapVal.obj m) :: rest)
          ((fp, MapVal.obj m) :: (processDoc ar wl tr (notWhitelistedBump st m) rest).2)
          = changedCount m m
            + docChangedCount rest (processDoc ar wl tr (notWhitelistedBump st m) rest).2
          from rfl, changedCount_self]
      rw [show (notWhitelistedBump st m).filled = st.filled from rfl] at this
      simpa using this
    · -- whitelisted
      have hpmf := @processMapping_filled ar tr fp m st hc
      have hpmc : CacheOK tr (processMapping ar tr fp st m).1.cache :=
        processMapping_inv (cacheOK_PE ar tr) m st hc
      have hst2f : (if (((processMapping ar tr fp st m).1.filled : Int) ≥ ar.maxFill : Bool)
          then { (processMapping ar tr fp st m).1 with stop := true }
          else (processMapping ar tr fp st m).1).filled
          = (processMapping ar tr fp st m).1.filled := by
        split <;> rfl
      have hst2c : CacheOK tr (if (((processMapping ar tr fp st m).1.filled : Int)
            ≥ ar.maxFill : Bool)
          then { (processMapping ar tr fp st m).1 with stop := true }
          else (processMapping ar tr fp st m).1).cache := by
        split
        · exact hpmc
        · exact hpmc
      have hrec := ih _ hst2c
      rw [hst2f] at hrec
      rw [show docChangedCount ((fp, MapVal.obj m) :: rest)
          ((fp, MapVal.obj (processMapping ar tr fp st m).2) ::
            (processDoc ar wl tr
              (if (((processMapping ar tr fp st m).1.filled : Int) ≥ ar.maxFill : Bool)
               then { (processMapping ar tr fp st m).1 with stop := true }
               else (processMapping ar tr fp st m).1) rest).2)
          = changedCount m (processMapping ar tr fp st m).2
            + docChangedCount rest (processDoc ar wl tr
              (if (((processMapping ar tr fp st m).1.filled : Int) ≥ ar.maxFill : Bool)
               then { (processMapping ar tr fp st m).1 with stop := true }
               else (processMapping ar tr fp st m).1) rest).2 from rfl]
      rw [hrec, hpmf]
      omega

/-- The key structure of a document: file-path keys in order, and for each
mapping its original-string keys in order (`none` for non-dict values). -/
def shapeOfDoc (doc : List (String × MapVal)) : List (String × Option (List String)) :=
  doc.map (fun p => (p.1,
    match p.2 with
    | .obj m => some (m.map Prod.fst)
    | .nondict => none))

theorem processDoc_shape {ar : Args} {wl : List String} {tr : String → Option String} :
    ∀ (doc : List (String × MapVal)) (st : RunState),
      shapeOfDoc (processDoc ar wl tr st doc).2 = shapeOfDoc doc := by
  intro doc
  induction doc with
  | nil => intro st; rfl
  | cons e rest ih =>
    intro st
    obtain ⟨fp, mv⟩ := e
    rw [processDoc_cons]
    split
    · rfl
    split
    · show ((fp, none) :: shapeOfDoc (processDoc ar wl tr st rest).2 :
          List (String × Option (List String))) = (fp, none) :: shapeOfDoc rest
      rw [ih st]
    rename_i m
    split
    · show ((fp, some (m.map Prod.fst)) ::
          shapeOfDoc (processDoc ar wl tr (notWhitelistedBump st m) rest).2 :
          List (String × Option (List String)))
        = (fp, some (m.map Prod.fst)) :: shapeOfDoc rest
      rw [ih _]
    · show ((fp, some ((processMapping ar tr fp st m).2.map Prod.fst)) ::
          shapeOfDoc (processDoc ar wl tr
            (if (((processMapping ar tr fp st m).1.filled : Int) ≥ ar.maxFill : Bool)
             then { (processMapping ar tr fp st m).1 with stop := true }
             else (processMapping ar tr fp st m).1) rest).2 :
          List (String × Option (List String)))
        = (fp, some (m.map Prod.fst)) :: shapeOfDoc rest
      rw [processMapping_keys, ih _]

/-!  Preservation of the statistics partition and of the fill cap. -/

theorem notWhitelistedBump_stats {st : RunState} {m : List (String × Option String)}
    (h : statsPartition st.stats) : statsPartition (notWhitelistedBump st m).stats := by
  obtain ⟨h1, h2⟩ := h
  unfold notWhitelistedBump
  exact ⟨by dsimp only; omega, by dsimp only; omega⟩

theorem stop_set_stats {st : RunState} (h : statsPartition st.stats) :
    statsPartition ({ st with stop := true } : RunState).stats := h

/-- The fill cap invariant: `filled` has not passed `--max`, and reaching the
cap has set the stop flag. -/
def maxInv (ar : Args) (st : RunState) : Prop :=
  (st.filled : Int) ≤ ar.maxFill ∧ ((st.filled : Int) = ar.maxFill → st.stop = true)

theorem processEntry_maxInv (ar : Args) (tr : String → Option String) (st : RunState)
    (fp o : String) (v : Option String) (hc : CacheOK tr st.cache) (h : maxInv ar st) :
    maxInv ar (processEntry ar tr st fp o v).1 := by
  rcases processEntry_outcome ar tr st fp o v hc with ⟨-, hf, hs⟩ | ⟨-, hstop, -, hf, hs⟩
  · exact ⟨hf ▸ h.1, fun he => hs ▸ h.2 (hf ▸ he)⟩
  · have hne : (st.filled : Int) ≠ ar.maxFill := by
      intro he
      rw [h.2 he] at hstop
      exact Bool.noConfusion hstop
    have hlt : (st.filled : Int) < ar.maxFill := lt_of_le_of_ne h.1 hne
    constructor
    · rw [hf]
      push_cast
      omega
    · intro he
      rw [hf] at he
      apply hs.mpr
      push_cast at he
      omega

theorem maxInv_bump {ar : Args} {st : RunState} {m : List (String × Option String)}
    (h : maxInv ar st) : maxInv ar (notWhitelistedBump st m) := h

theorem maxInv_stop {ar : Args} {st : RunState} (h : maxInv ar st) :
    maxInv ar ({ st with stop := true } : RunState) :=
  ⟨h.1, fun _ => rfl⟩

/-!  Claim theorems. -/

theorem truePreserved (ar : Args) (tr : String → Option String) :
    PreservedPE ar tr (fun _ => True) := fun _ _ _ _ _ => trivial

theorem docStep_obj_unchanged (ar : Args) (wl : List String) (tr : String → Option String)
    (st : RunState) (fp : String) (m : List (String × Option String)) (i : Nat)
    (o : String) (v : Option String) (hm : m.get? i = some (o, v))
    (hval : ∀ st2 : RunState, (processEntry ar tr st2 fp o v).2 = v) :
    ∃ m', docStep ar wl tr st fp (MapVal.obj m) = MapVal.obj m' ∧
      m'.get? i = some (o, v) := by
  unfold docStep
  split
  · exact ⟨m, rfl, hm⟩
  · show ∃ m', (if !pathWhitelisted fp wl then MapVal.obj m
        else MapVal.obj (processMapping ar tr fp st m).2) = MapVal.obj m' ∧
      m'.get? i = some (o, v)
    split
    · exact ⟨m, rfl, hm⟩
    · obtain ⟨st'', -, hres⟩ :=
        processMapping_get (I := fun _ => True) (truePreserved ar tr) m st trivial i o v hm
      rw [hval st''] at hres
      exact ⟨_, rfl, hres⟩

/-- C1: an entry whose original string is classified high-risk — including
the string with no ASCII letter at all — is never submitted to the
translation service, and its value in the output equals its value in the
input. -/
theorem C1_high_risk_never_submitted (ar : Args) (tr : String → Option String)
    (doc : List (String × MapVal)) :
    (∀ fp o, (fp, o) ∈ (runMain ar tr doc).1.attempted →
      containsLetters o = true ∧ isHighRisk o = false) ∧
    (∀ (j i : Nat) (fp : String) (m : List (String × Option String)) (o : String)
      (v : Option String),
      doc.get? j = some (fp, MapVal.obj m) → m.get? i = some (o, v) →
      (containsLetters o = false ∨ isHighRisk o = true) →
      ∃ m', (runMain ar tr doc).2.get? j = some (fp, MapVal.obj m') ∧
        m'.get? i = some (o, v)) := by
  constructor
  · intro fp o hmem
    rcases processDoc_attempted_mem doc initState (fp, o) hmem with h | h
    · exact absurd h (List.not_mem_nil _)
    · exact ⟨h.2.1, h.2.2.1⟩
  · intro j i fp m o v hj hi hrisk
    obtain ⟨st', -, hget⟩ :=
      processDoc_get (I := fun _ => True) (truePreserved ar tr)
        (fun _ _ _ => trivial) (fun _ _ => trivial) doc initState trivial j fp
        (MapVal.obj m) hj
    obtain ⟨m', hstep, hmi⟩ :=
      docStep_obj_unchanged ar (effectiveWhitelist ar) tr st' fp m i o v hi
        (fun st2 => processEntry_snd_highRisk hrisk)
    rw [hstep] at hget
    exact ⟨m', hget, hmi⟩

/-- C3: an entry whose value in the input is neither `null` nor the empty
string keeps exactly its input value in the output. -/
theorem C3_nonempty_values_preserved (ar : Args) (tr : String → Option String)
    (doc : List (String × MapVal)) :
    ∀ (j i : Nat) (fp : String) (m : List (String × Option String)) (o : String)
      (v : Option String),
      doc.get? j = some (fp, MapVal.obj m) → m.get? i = some (o, v) →
      emptyVal v = false →
      ∃ m', (runMain ar tr doc).2.get? j = some (fp, MapVal.obj m') ∧
        m'.get? i = some (o, v) := by
  intro j i fp m o v hj hi hv
  obtain ⟨st', -, hget⟩ :=
    processDoc_get (I := fun _ => True) (truePreserved ar tr)
      (fun _ _ _ => trivial) (fun _ _ => trivial) doc initState trivial j fp
      (MapVal.obj m) hj
  obtain ⟨m', hstep, hmi⟩ :=
    docStep_obj_unchanged ar (effectiveWhitelist ar) tr st' fp m i o v hi
      (fun st2 => by rw [processEntry_keep hv])
  rw [hstep] at hget
  exact ⟨m', hget, hmi⟩

/-- C5: the output document has exactly the input's file-path keys, each with
exactly the input's original-string keys, in the input's order; only
translation values change. -/
theorem C5_structure_preserved (ar : Args) (tr : String → Option String)
    (doc : List (String × MapVal)) :
    shapeOfDoc (runMain ar tr doc).2 = shapeOfDoc doc :=
  processDoc_shape doc initState

/-- C6: with `--require-uppercase-start`, an empty entry is submitted only if
its first non-whitespace character is an ASCII uppercase letter or its
stripped text is a safe single-word label; any other entry is left unchanged,
and such an empty, non-high-risk entry is counted as `skipped_not_uiish`. -/
theorem C6_uppercase_start_gate (ar : Args) (tr : String → Option String)
    (doc : List (String × MapVal)) (hflag : ar.requireUppercaseStart = true) :
    (∀ fp o, (fp, o) ∈ (runMain ar tr doc).1.attempted →
      uppercaseStart o = true ∨ SAFE_SINGLE_WORDS.contains (pyStripStr o) = true) ∧
    (∀ (j i : Nat) (fp : String) (m : List (String × Option String)) (o : String)
      (v : Option String),
      doc.get? j = some (fp, MapVal.obj m) → m.get? i = some (o, v) →
      uppercaseStart o = false → SAFE_SINGLE_WORDS.contains (pyStripStr o) = false →
      ∃ m', (runMain ar tr doc).2.get? j = some (fp, MapVal.obj m') ∧
        m'.get? i = some (o, v)) ∧
    (∀ (st : RunState) (fp o : String) (v : Option String),
      st.stop = false → emptyVal v = true → containsLetters o = true →
      isHighRisk o = false → uppercaseStart o = false →
      SAFE_SINGLE_WORDS.contains (pyStripStr o) = false →
      processEntry ar tr st fp o v =
        ({ st with stats := { st.stats with
            scanned_empty := st.stats.scanned_empty + 1,
            skipped_not_uiish := st.stats.skipped_not_uiish + 1 } }, v)) := by
  refine ⟨?_, ?_, ?_⟩
  · intro fp o hmem
    rcases processDoc_attempted_mem doc initState (fp, o) hmem with h | h
    · exact absurd h (List.not_mem_nil _)
    · exact h.2.2.2 hflag
  · intro j i fp m o v hj hi hup hsafe
    obtain ⟨st', -, hget⟩ :=
      processDoc_get (I := fun _ => True) (truePreserved ar tr)
        (fun _ _ _ => trivial) (fun _ _ => trivial) doc initState trivial j fp
        (MapVal.obj m) hj
    obtain ⟨m', hstep, hmi⟩ :=
      docStep_obj_unchanged ar (effectiveWhitelist ar) tr st' fp m i o v hi
        (fun st2 => processEntry_snd_notUiish hflag hup hsafe)
    rw [hstep] at hget
    exact ⟨m', hget, hmi⟩
  · intro st fp o v hstop hv hlet hrisk hup hsafe
    exact processEntry_notUiish_eq hstop hv hlet hrisk hflag hup hsafe

theorem docStep_not_whitelisted {ar : Args} {wl : List String} {tr : String → Option String}
    {st : RunState} {fp : String} (mv : MapVal)
    (h : pathWhitelisted fp wl = false) : docStep ar wl tr st fp mv = mv := by
  unfold docStep
  split
  · rfl
  · cases mv with
    | nondict => rfl
    | obj m =>
      show (if !pathWhitelisted fp wl then MapVal.obj m
        else MapVal.obj (processMapping ar tr fp st m).2) = MapVal.obj m
      rw [if_pos (by simp [h])]

/-- C7: a mapping whose file path starts with no whitelisted path stays
entirely unchanged, and none of its strings is ever submitted for
translation. -/
theorem C7_not_whitelisted_untouched (ar : Args) (tr : String → Option String)
    (doc : List (String × MapVal)) :
    ∀ (j : Nat) (fp : String) (mv : MapVal),
      doc.get? j = some (fp, mv) →
      pathWhitelisted fp (effectiveWhitelist ar) = false →
      (runMain ar tr doc).2.get? j = some (fp, mv) ∧
        ∀ o, (fp, o) ∉ (runMain ar tr doc).1.attempted := by
  intro j fp mv hj hwl
  constructor
  · obtain ⟨st', -, hget⟩ :=
      processDoc_get (I := fun _ => True) (truePreserved ar tr)
        (fun _ _ _ => trivial) (fun _ _ => trivial) doc initState trivial j fp mv hj
    rw [docStep_not_whitelisted mv hwl] at hget
    exact hget
  · intro o hmem
    rcases processDoc_attempted_mem doc initState (fp, o) hmem with h | h
    · exact absurd h (List.not_mem_nil _)
    · have h2 : pathWhitelisted fp (effectiveWhitelist ar) = true := h.1
      rw [hwl] at h2
      exact Bool.noConfusion h2

/-- C8: with `--max` at least 1, at most `--max` entries are filled: the
final `filled` counter is bounded by `--max`, and it equals the number of
entries whose value changed between input and output. -/
theorem C8_max_cap (ar : Args) (tr : String → Option String)
    (doc : List (String × MapVal)) (h : 1 ≤ ar.maxFill) :
    ((runMain ar tr doc).1.filled : Int) ≤ ar.maxFill ∧
    docChangedCount doc (runMain ar tr doc).2 = (runMain ar tr doc).1.filled := by
  constructor
  · have hinv := @processDoc_inv ar (effectiveWhitelist ar) tr
      (fun s => CacheOK tr s.cache ∧ maxInv ar s)
      (fun st fp o v hI =>
        ⟨processEntry_cacheOK ar tr st fp o v hI.1,
         processEntry_maxInv ar tr st fp o v hI.1 hI.2⟩)
      (fun st m hI => ⟨hI.1, maxInv_bump hI.2⟩)
      (fun st hI => ⟨hI.1, maxInv_stop hI.2⟩)
      doc initState
      ⟨CacheOK_nil tr, by
        constructor
        · show ((0 : Nat) : Int) ≤ ar.maxFill
          omega
        · intro he
          exfalso
          have h0 : ((0 : Nat) : Int) = ar.maxFill := he
          omega⟩
    exact hinv.2.1
  · have hf := @processDoc_filled ar (effectiveWhitelist ar) tr doc initState (CacheOK_nil tr)
    rw [show initState.filled = 0 from rfl, Nat.zero_add] at hf
    exact hf.symm

/-- C9: the outcome counters partition the scanned empty entries, and the
eligible entries split into filled, translation-failed and no-chinese. -/
theorem C9_stats_partition (ar : Args) (tr : String → Option String)
    (doc : List (String × MapVal)) :
    (runMain ar tr doc).1.stats.scanned_empty
      = (runMain ar tr doc).1.stats.filled
        + (runMain ar tr doc).1.stats.skipped_high_risk
        + (runMain ar tr doc).1.stats.skipped_not_whitelisted
        + (runMain ar tr doc).1.stats.skipped_not_uiish
        + (runMain ar tr doc).1.stats.skipped_translation_failed
        + (runMain ar tr doc).1.stats.skipped_no_chinese ∧
    (runMain ar tr doc).1.stats.eligible
      = (runMain ar tr doc).1.stats.filled
        + (runMain ar tr doc).1.stats.skipped_translation_failed
        + (runMain ar tr doc).1.stats.skipped_no_chinese :=
  processDoc_inv (I := fun s => statsPartition s.stats)
    (fun st fp o v hI => processEntry_stats ar tr st fp o v hI)
    (fun _ _ hI => notWhitelistedBump_stats hI)
    (fun _ hI => hI)
    doc initState ⟨rfl, rfl⟩

theorem docStep_obj (ar : Args) (wl : List String) (tr : String → Option String)
    (st : RunState) (fp : String) (m : List (String × Option String)) :
    docStep ar wl tr st fp (MapVal.obj m)
      = (if st.stop then MapVal.obj m
         else if !pathWhitelisted fp wl then MapVal.obj m
         else MapVal.obj (processMapping ar tr fp st m).2) := rfl

/-- C4: every value the tool writes is the unmasked translation of the
masked original, stripped of surrounding whitespace, and contains a CJK
character; if the stripped unmasked translation contains no CJK character
the entry keeps its value and `skipped_no_chinese` is incremented —
validation happens after unmasking and before writing. -/
theorem C4_fill_is_validated_translation (ar : Args) (tr : String → Option String)
    (doc : List (String × MapVal)) :
    (∀ (j i : Nat) (fp : String) (m m' : List (String × Option String)) (o : String)
      (v : Option String) (w : String),
      doc.get? j = some (fp, MapVal.obj m) → m.get? i = some (o, v) →
      (runMain ar tr doc).2.get? j = some (fp, MapVal.obj m') →
      m'.get? i = some (o, some w) → some w ≠ v →
      hasCJK w = true ∧ pyStripStr w = w ∧
        ∃ t u, serviceResult tr (maskPlaceholders o).1 = some t ∧
          unmaskPlaceholders t (maskPlaceholders o).2 = (true, u) ∧ w = pyStripStr u) ∧
    (∀ (st : RunState) (fp o : String) (v : Option String) (t u : String),
      st.stop = false → emptyVal v = true → containsLetters o = true →
      isHighRisk o = false →
      (ar.requireUppercaseStart = true →
        (uppercaseStart o = true ∨ SAFE_SINGLE_WORDS.contains (pyStripStr o) = true)) →
      CacheOK tr st.cache →
      serviceResult tr (maskPlaceholders o).1 = some t →
      unmaskPlaceholders t (maskPlaceholders o).2 = (true, u) →
      hasCJK (pyStripStr u) = false →
      (processEntry ar tr st fp o v).2 = v ∧
      (processEntry ar tr st fp o v).1.stats.skipped_no_chinese
        = st.stats.skipped_no_chinese + 1) := by
  constructor
  · intro j i fp m m' o v w hj hi hj' hi' hne
    obtain ⟨st', hcac, hget⟩ :=
      @processDoc_get ar (effectiveWhitelist ar) tr (fun s => CacheOK tr s.cache)
        (cacheOK_PE ar tr) (fun _ _ h => h) (fun _ h => h) doc initState (CacheOK_nil tr)
        j fp (MapVal.obj m) hj
    have hget2 : (runMain ar tr doc).2.get? j
        = some (fp, docStep ar (effectiveWhitelist ar) tr st' fp (MapVal.obj m)) := hget
    rw [hj'] at hget2
    injection hget2 with hget
    injection hget with hfp hmv
    rw [docStep_obj] at hmv
    split at hmv
    · injection hmv with hm
      subst hm
      rw [hi] at hi'
      injection hi' with hi'
      injection hi' with ho hveq
      exact absurd hveq.symm hne
    split at hmv
    · injection hmv with hm
      subst hm
      rw [hi] at hi'
      injection hi' with hi'
      injection hi' with ho hveq
      exact absurd hveq.symm hne
    · injection hmv with hm
      obtain ⟨st'', hc'', hres⟩ :=
        processMapping_get (I := fun s => CacheOK tr s.cache) (cacheOK_PE ar tr) m st'
          hcac i o v hi
      rw [← hm] at hres
      rw [hi'] at hres
      injection hres with hres
      injection hres with ho hval
      rcases processEntry_outcome ar tr st'' fp o v hc'' with ⟨hv2, -, -⟩ | hcase
      · exact absurd (hval.trans hv2) hne
      · obtain ⟨-, -, ⟨t, u, hsv, hum, hval2, hcjk⟩, -, -⟩ := hcase
        have hw : some w = some (pyStripStr u) := hval.trans hval2
        injection hw with hw
        subst hw
        refine ⟨hcjk, pyStripStr_idem u, t, u, hsv, hum, rfl⟩
  · intro st fp o v t u hstop hv hlet hrisk hui hc hsv hum hcjk
    have := processEntry_noChinese ar tr st fp o v t u hstop hv hlet hrisk hui hc hsv hum hcjk
    exact ⟨this.1, this.2.1⟩

/-!  Concrete runs used by the witnesses. -/

/-- A small whitelisted mapping exercising a fill, a high-risk skip, an
already-translated entry and a non-uiish entry. -/
def wMap : List (String × Option String) :=
  [("Open file", some ""), ("foo_bar", none), ("Done", some "已"), ("open file", none)]

/-- A two-mapping document: one whitelisted path, one not. -/
def wDoc : List (String × MapVal) :=
  [("zed/crates/search/src/a.rs", MapVal.obj wMap),
   ("lib/x.rs", MapVal.obj [("Empty", none)])]

/-- Default arguments. -/
def wAr : Args := ⟨250, false, []⟩

/-- Arguments with `--require-uppercase-start`. -/
def wArFlag : Args := ⟨250, true, []⟩

/-- A service oracle that always translates to a CJK string. -/
def wTr : String → Option String := fun _ => some "你好"

/-- Witness for C1 at the high-risk entry `"foo_bar"`. -/
theorem C1_witness :
    (wDoc.get? 0 = some ("zed/crates/search/src/a.rs", MapVal.obj wMap) ∧
      wMap.get? 1 = some ("foo_bar", none) ∧ isHighRisk "foo_bar" = true) ∧
    (∃ m', (runMain wAr wTr wDoc).2.get? 0
        = some ("zed/crates/search/src/a.rs", MapVal.obj m') ∧
      m'.get? 1 = some ("foo_bar", none)) :=
  ⟨⟨by decide, by decide, by decide⟩,
    (C1_high_risk_never_submitted wAr wTr wDoc).2 0 1 "zed/crates/search/src/a.rs" wMap
      "foo_bar" none (by decide) (by decide) (Or.inr (by decide))⟩

/-- Witness for C3 at the already-translated entry `"Done"`. -/
theorem C3_witness :
    (wDoc.get? 0 = some ("zed/crates/search/src/a.rs", MapVal.obj wMap) ∧
      wMap.get? 2 = some ("Done", some "已") ∧ emptyVal (some "已") = false) ∧
    (∃ m', (runMain wAr wTr wDoc).2.get? 0
        = some ("zed/crates/search/src/a.rs", MapVal.obj m') ∧
      m'.get? 2 = some ("Done", some "已")) :=
  ⟨⟨by decide, by decide, by decide⟩,
    C3_nonempty_values_preserved wAr wTr wDoc 0 2 "zed/crates/search/src/a.rs" wMap
      "Done" (some "已") (by decide) (by decide) (by decide)⟩

/-- Witness for C4 at the filled entry `"Open file"`. -/
theorem C4_witness :
    (wDoc.get? 0 = some ("zed/crates/search/src/a.rs", MapVal.obj wMap) ∧
      wMap.get? 0 = some ("Open file", some "") ∧
      (runMain wAr wTr wDoc).2.get? 0 = some ("zed/crates/search/src/a.rs",
        MapVal.obj [("Open file", some "你好"), ("foo_bar", none), ("Done", some "已"),
          ("open file", some "你好")]) ∧
      ((some "你好" : Option String) ≠ some "")) ∧
    (hasCJK "你好" = true ∧ pyStripStr "你好" = "你好" ∧
      ∃ t u, serviceResult wTr (maskPlaceholders "Open file").1 = some t ∧
        unmaskPlaceholders t (maskPlaceholders "Open file").2 = (true, u) ∧
        "你好" = pyStripStr u) :=
  ⟨⟨by decide, by decide, by decide, by decide⟩,
    (C4_fill_is_validated_translation wAr wTr wDoc).1 0 0 "zed/crates/search/src/a.rs" wMap
      [("Open file", some "你好"), ("foo_bar", none), ("Done", some "已"),
        ("open file", some "你好")]
      "Open file" (some "") "你好" (by decide) (by decide) (by decide) (by decide)
      (by decide)⟩

/-- Witness for C6 at the non-uiish entry `"open file"` with the flag set. -/
theorem C6_witness :
    (wArFlag.requireUppercaseStart = true ∧
      wDoc.get? 0 = some ("zed/crates/search/src/a.rs", MapVal.obj wMap) ∧
      wMap.get? 3 = some ("open file", none) ∧
      uppercaseStart "open file" = false ∧
      SAFE_SINGLE_WORDS.contains (pyStripStr "open file") = false) ∧
    (∃ m', (runMain wArFlag wTr wDoc).2.get? 0
        = some ("zed/crates/search/src/a.rs", MapVal.obj m') ∧
      m'.get? 3 = some ("open file", none)) :=
  ⟨⟨by decide, by decide, by decide, by decide, by decide⟩,
    (C6_uppercase_start_gate wArFlag wTr wDoc (by decide)).2.1 0 3
      "zed/crates/search/src/a.rs" wMap "open file" none (by decide) (by decide)
      (by decide) (by decide)⟩

/-- Witness for C7 at the non-whitelisted path `"lib/x.rs"`. -/
theorem C7_witness :
    (wDoc.get? 1 = some ("lib/x.rs", MapVal.obj [("Empty", none)]) ∧
      pathWhitelisted "lib/x.rs" (effectiveWhitelist wAr) = false) ∧
    ((runMain wAr wTr wDoc).2.get? 1 = some ("lib/x.rs", MapVal.obj [("Empty", none)]) ∧
      ∀ o, ("lib/x.rs", o) ∉ (runMain wAr wTr wDoc).1.attempted) :=
  ⟨⟨by decide, by decide⟩,
    C7_not_whitelisted_untouched wAr wTr wDoc 1 "lib/x.rs"
      (MapVal.obj [("Empty", none)]) (by decide) (by decide)⟩

/-- Witness for C8 with `--max 250`. -/
theorem C8_witness :
    ((1 : Int) ≤ wAr.maxFill) ∧
    (((runMain wAr wTr wDoc).1.filled : Int) ≤ wAr.maxFill ∧
      docChangedCount wDoc (runMain wAr wTr wDoc).2 = (runMain wAr wTr wDoc).1.filled) :=
  ⟨by decide, C8_max_cap wAr wTr wDoc (by decide)⟩
